import Mathlib

/-!
# Huffman codec (`1.c`): shallow embedding and verified properties

Conventions of the embedding.

* A C `char` is a Lean `Char`; a C string (`char *` to a NUL-terminated buffer) is the
  `List Char` of the characters before the terminating NUL.  A string pointer that may be
  `NULL` is an `Option (List Char)`, `none` standing for `NULL`.
* A `HuffmanNode *` is a value of `HuffmanNode`: the constructor `NULL` is the null pointer
  and `node data weight left right` a pointer to a node with these fields.  The `next` field
  only links the work list of `insertNode` / `buildHuffmanTree`; that work list is a Lean
  `List HuffmanNode` (the nodes from `*head` along `next`).
* `int` weights are exact integers (`Int`): signed overflow is undefined behaviour in C and
  is outside the model.  `int` lengths, counts and indices are natural numbers.  The one
  addition of weights in the program (line 52) is also given with the value a 32-bit
  two's-complement machine computes, in `buildLoop32`, `buildHuffmanTree32` and
  `buildTreeAndCodes32`; the two agree as long as no sum leaves the range of `int`.
* `unsigned char` bytes are natural numbers, reduced `% 256` where C converts to the type.
* A routine that can perform an invalid memory access returns an `Option`, `none` standing
  for that access.
-/

namespace Huffman

/-! ## Data model -/

/-- The terminating character of a C string. -/
def NUL : Char := Char.ofNat 0

/-- Pointer to a `struct HuffmanNode` (lines 6-10): `NULL`, or a node with its fields. -/
inductive HuffmanNode where
  | NULL : HuffmanNode
  | node (data : Char) (weight : Int) (left right : HuffmanNode) : HuffmanNode
  deriving DecidableEq

/-- The entry type `struct HuffmanCode` (lines 13-16). -/
structure HuffmanCode where
  data : Char
  code : List Char
  deriving DecidableEq

namespace HuffmanNode

/-- Test `p == NULL`. -/
def isNULL : HuffmanNode → Bool
  | NULL => true
  | node _ _ _ _ => false

/-- Field access `p->weight`; only used on nodes of the work list, which are never `NULL`. -/
def weight : HuffmanNode → Int
  | NULL => 0
  | node _ w _ _ => w

/-- Field access `p->data`. -/
def data : HuffmanNode → Char
  | NULL => NUL
  | node d _ _ _ => d

/-- Field access `p->left`. -/
def left : HuffmanNode → HuffmanNode
  | NULL => NULL
  | node _ _ l _ => l

/-- Field access `p->right`. -/
def right : HuffmanNode → HuffmanNode
  | NULL => NULL
  | node _ _ _ r => r

/-- The test `p->left == NULL && p->right == NULL` on a non-null `p`. -/
def isLeaf : HuffmanNode → Bool
  | NULL => false
  | node _ _ l r => l.isNULL && r.isNULL

end HuffmanNode

open HuffmanNode

/-! ## Tree construction (lines 19-60) -/

/-- `createNode` (lines 19-25). -/
def createNode (data : Char) (weight : Int) : HuffmanNode :=
  node data weight NULL NULL

/-- The `while` loop of `insertNode` (lines 34-38); the argument is the list from
`current->next` on, the result is what `current->next` points to afterwards. -/
def insertAfter : List HuffmanNode → HuffmanNode → List HuffmanNode
  | [], newNode => [newNode]
  | nxt :: rest, newNode =>
    if nxt.weight ≤ newNode.weight then nxt :: insertAfter rest newNode
    else newNode :: nxt :: rest

/-- `insertNode` (lines 28-40): insert into the list kept in ascending order of weight. -/
def insertNode : List HuffmanNode → HuffmanNode → List HuffmanNode
  | [], newNode => [newNode]
  | hd :: rest, newNode =>
    if hd.weight > newNode.weight then newNode :: hd :: rest
    else hd :: insertAfter rest newNode

/-- The `while` loop of `buildHuffmanTree` (lines 45-58) with an iteration budget.  `none` on the
empty list is the read of `(*head)->next` through a null `*head`. -/
def buildLoop : Nat → List HuffmanNode → Option HuffmanNode
  | _, [] => none
  | _, [root] => some root
  | 0, _ :: _ :: _ => none
  | fuel + 1, min1 :: min2 :: rest =>
    buildLoop fuel (insertNode rest (node NUL (min1.weight + min2.weight) min1 min2))

/-- `buildHuffmanTree` (lines 43-60); the parameter `n` of the C function is unused there and
is dropped.  The budget is the length of the list, one more than the iterations needed. -/
def buildHuffmanTree (head : List HuffmanNode) : Option HuffmanNode :=
  buildLoop head.length head

/-- The list construction of `main` (lines 505-509, 561-565, 756-760): starting from the empty
list, one `createNode` and `insertNode` per entry, in order. -/
def buildList (entries : List (Char × Int)) : List HuffmanNode :=
  entries.foldl (fun head e => insertNode head (createNode e.1 e.2)) []

/-! ## Code table (lines 63-98) -/

/-- State threaded through `generateHuffmanCodes`: the entries `codes[0 .. *index)` written so
far (`*index` is their number), the number `size` of entries allocated for `codes`, and the
contents of the scratch buffer `code`. -/
structure GenState where
  codes : List HuffmanCode
  size : Nat
  code : List Char
  deriving DecidableEq

/-- The C string held in a buffer: the characters before the first NUL, `none` when the buffer
holds no NUL (a read past its end). -/
def cstring (buf : List Char) : Option (List Char) :=
  if NUL ∈ buf then some (buf.takeWhile (fun c => c ≠ NUL)) else none

/-- The two writes `code[depth] = bit; code[depth + 1] = 0` (lines 77-78, 84-85); `none` when
one of them is outside the buffer. -/
def writeBit (code : List Char) (depth : Nat) (bit : Char) : Option (List Char) :=
  if depth + 1 < code.length then some ((code.set depth bit).set (depth + 1) NUL) else none

/-- `generateHuffmanCodes` (lines 63-88).  `none` when a write leaves the scratch buffer or the
`codes` array, or when `strcpy` copies more than the `depth + 1` characters allocated. -/
def generateHuffmanCodes : HuffmanNode → GenState → Nat → Option GenState
  | NULL, st, _ => some st
  | node data _ left right, st, depth =>
    if left.isNULL && right.isNULL then
      match cstring st.code with
      | none => none
      | some s =>
        if st.codes.length < st.size ∧ s.length ≤ depth then
          some { st with codes := st.codes ++ [⟨data, s⟩] }
        else none
    else
      let afterLeft : Option GenState :=
        if left.isNULL then some st
        else
          match writeBit st.code depth '0' with
          | none => none
          | some buf => generateHuffmanCodes left { st with code := buf } (depth + 1)
      match afterLeft with
      | none => none
      | some st1 =>
        if right.isNULL then some st1
        else
          match writeBit st1.code depth '1' with
          | none => none
          | some buf => generateHuffmanCodes right { st1 with code := buf } (depth + 1)

/-- The set-up code of `main` (lines 505-520, 561-576, 756-770) for `n` entries: build the list
and the tree, allocate `n` table entries and a scratch buffer of `n + 1` characters (`tempCode`
is its content as allocated), store NUL at index 0 and generate the table. -/
def buildTreeAndCodes (entries : List (Char × Int)) (tempCode : List Char) :
    Option (HuffmanNode × List HuffmanCode) :=
  match buildHuffmanTree (buildList entries) with
  | none => none
  | some huffmanTree =>
    match generateHuffmanCodes huffmanTree ⟨[], entries.length, tempCode.set 0 NUL⟩ 0 with
    | none => none
    | some st => some (huffmanTree, st.codes)

/-- `findCode` (lines 91-98) on the table `codes[0 .. n)`; `none` is the `NULL` result. -/
def findCode : List HuffmanCode → Char → Option (List Char)
  | [], _ => none
  | entry :: rest, ch => if entry.data = ch then some entry.code else findCode rest ch

/-! ## Encoding and decoding (lines 101-163) -/

/-- First loop of `encodeString` (lines 106-111): `totalLen`. -/
def encodeLength (codes : List HuffmanCode) : List Char → Nat → Nat
  | [], totalLen => totalLen
  | ch :: rest, totalLen =>
    match findCode codes ch with
    | some code => encodeLength codes rest (totalLen + code.length)
    | none => encodeLength codes rest totalLen

/-- Second loop of `encodeString` (lines 117-122): the `strcat` calls. -/
def encodeLoop (codes : List HuffmanCode) : List Char → List Char → List Char
  | [], encoded => encoded
  | ch :: rest, encoded =>
    match findCode codes ch with
    | some code => encodeLoop codes rest (encoded ++ code)
    | none => encodeLoop codes rest encoded

/-- `encodeString` (lines 101-125).  The result is the returned string, which is never `NULL`;
`none` would be a `strcat` past the `totalLen` characters allocated. -/
def encodeString (codes : List HuffmanCode) (str : List Char) : Option (List Char) :=
  let encoded := encodeLoop codes str []
  if encoded.length + 1 ≤ encodeLength codes str 1 then some encoded else none

/-- What a call of `decodeString` does. -/
inductive DecodeResult where
  | invalidAccess : DecodeResult
  | returnsNULL : DecodeResult
  | returns (decoded : List Char) (incomplete : Bool) : DecodeResult
  deriving DecidableEq

/-- The `for` loop of `decodeString` and the code after it (lines 137-162).  `decoded` holds
the characters written so far; `incomplete` in the result tells whether `current != root` held
at the end, that is whether the warning of line 159 was printed.  `current` is `root` itself or
a node below it, and a node below `root` differs from `root` as a value, so the comparison of
values agrees with the comparison of pointers. -/
def decodeLoop (root : HuffmanNode) : HuffmanNode → List Char → List Char → DecodeResult
  | current, [], decoded => DecodeResult.returns decoded (decide (current ≠ root))
  | current, bit :: rest, decoded =>
    if bit = '0' ∨ bit = '1' then
      match current with
      | NULL => DecodeResult.invalidAccess
      | node _ _ l r =>
        match (if bit = '0' then l else r) with
        | NULL => DecodeResult.invalidAccess
        | node d w l2 r2 =>
          if l2.isNULL && r2.isNULL then decodeLoop root root rest (decoded ++ [d])
          else decodeLoop root (node d w l2 r2) rest decoded
    else DecodeResult.returnsNULL

/-- `decodeString` (lines 128-163). -/
def decodeString (root : HuffmanNode) (encoded : Option (List Char)) : DecodeResult :=
  match root, encoded with
  | NULL, _ => DecodeResult.returnsNULL
  | _, none => DecodeResult.returnsNULL
  | node d w l r, some bits => decodeLoop (node d w l r) (node d w l r) bits []

/-! ## Bit packing (lines 215-250) -/

/-- The loop of `binaryStringToBytes` (lines 222-228) from index `i` on. -/
def packLoop : List Char → Nat → List Nat → List Nat
  | [], _, bytes => bytes
  | c :: rest, i, bytes =>
    if c = '1' then
      packLoop rest (i + 1) (bytes.set (i / 8) ((bytes.getD (i / 8) 0 ||| (1 <<< (7 - i % 8))) % 256))
    else packLoop rest (i + 1) bytes

/-- `binaryStringToBytes` (lines 215-231): the byte array and the value stored in `*byteCount`. -/
def binaryStringToBytes (binaryStr : List Char) : List Nat × Nat :=
  let bitCount := binaryStr.length
  let byteCount := (bitCount + 7) / 8
  (packLoop binaryStr 0 (List.replicate byteCount 0), byteCount)

/-- Inner loop of `bytesToBinaryString` (lines 239-245) for one byte; the first argument is
`j + 1`, and `binaryStr` holds the `index` characters written so far. -/
def unpackByte (byte bitCount : Nat) : Nat → List Char → List Char
  | 0, binaryStr => binaryStr
  | j + 1, binaryStr =>
    if binaryStr.length < bitCount then
      unpackByte byte bitCount j (binaryStr ++ [if byte &&& (1 <<< j) ≠ 0 then '1' else '0'])
    else binaryStr

/-- Outer loop of `bytesToBinaryString` (lines 238-246); the first argument is `byteCount - i`.
`none` is a read of `bytes[i]` outside the array. -/
def unpackLoop (bytes : List Nat) (byteCount bitCount : Nat) :
    Nat → List Char → Option (List Char)
  | 0, binaryStr => some binaryStr
  | k + 1, binaryStr =>
    if binaryStr.length < bitCount then
      match bytes[byteCount - (k + 1)]? with
      | none => none
      | some byte => unpackLoop bytes byteCount bitCount k (unpackByte byte bitCount 8 binaryStr)
    else some binaryStr

/-- `bytesToBinaryString` (lines 234-250).  `none` is an invalid read of `bytes`, or a result
string with characters below `bitCount` that were never written. -/
def bytesToBinaryString (bytes : List Nat) (byteCount bitCount : Nat) : Option (List Char) :=
  match unpackLoop bytes byteCount bitCount byteCount [] with
  | none => none
  | some binaryStr => if binaryStr.length = bitCount then some binaryStr else none

/-! ## Notions used in the statements -/

/-- A strict binary tree: a non-null node each of whose nodes has no child or two children. -/
def Full : HuffmanNode → Prop
  | NULL => False
  | node _ _ l r => (l = NULL ∧ r = NULL) ∨ (Full l ∧ Full r)

/-- The (symbol, weight) pairs of the leaves, left to right. -/
def leaves : HuffmanNode → List (Char × Int)
  | NULL => []
  | node d w l r => if l.isNULL && r.isNULL then [(d, w)] else leaves l ++ leaves r

/-- Number of edges on the longest path from the node down to a leaf. -/
def height : HuffmanNode → Nat
  | NULL => 0
  | node _ _ l r => if l.isNULL && r.isNULL then 0 else max (height l) (height r) + 1

/-- The table entries of the leaves, left to right, each code being `path` followed by the
branch characters from the node down to the leaf (`'0'` left, `'1'` right). -/
def codesOf : HuffmanNode → List Char → List HuffmanCode
  | NULL, _ => []
  | node d _ l r, path =>
    if l.isNULL && r.isNULL then [⟨d, path⟩]
    else codesOf l (path ++ ['0']) ++ codesOf r (path ++ ['1'])

/-- The codes of the symbols of `str` that have a table entry, in order. -/
def codeList (codes : List HuffmanCode) (str : List Char) : List (List Char) :=
  str.filterMap (findCode codes)

/-- Number of nodes of a tree. -/
def size : HuffmanNode → Nat
  | NULL => 0
  | node _ _ l r => size l + size r + 1

/-- Bit `k` of a packed buffer in the logical order: bit `7 - k % 8` of byte `k / 8`. -/
def logicalBit (bytes : List Nat) (k : Nat) : Bool :=
  (bytes.getD (k / 8) 0).testBit (7 - k % 8)

/-- The character a logical bit unpacks to. -/
def bitChar (bytes : List Nat) (k : Nat) : Char :=
  if logicalBit bytes k then '1' else '0'

/-- Weighted path length below a node that sits at depth `depth`: the sum over the leaves of
weight times depth. -/
def weightedPathLength : HuffmanNode → Nat → Int
  | NULL, _ => 0
  | node _ w l r, depth =>
    if l.isNULL && r.isNULL then w * (depth : Int)
    else weightedPathLength l (depth + 1) + weightedPathLength r (depth + 1)

/-- Sum of the weights of the leaves. -/
def weightSum (t : HuffmanNode) : Int :=
  ((leaves t).map Prod.snd).sum

/-- The (weight, depth) pairs of the leaves of a node that sits at depth `depth`. -/
def depthPairs : HuffmanNode → Nat → List (Int × Nat)
  | NULL, _ => []
  | node _ w l r, depth =>
    if l.isNULL && r.isNULL then [(w, depth)]
    else depthPairs l (depth + 1) ++ depthPairs r (depth + 1)

/-- Sum of weight times depth over a list of (weight, depth) pairs. -/
def pairCost (ps : List (Int × Nat)) : Int :=
  (ps.map (fun p => p.1 * (p.2 : Int))).sum

/-- The lists of depths that are, up to order, the leaf depths of a strict binary tree. -/
def IsDepths (ds : List Nat) : Prop :=
  ∃ u, Full u ∧ ds.Perm ((depthPairs u 0).map Prod.snd)

/-- The work list is in ascending order of weight. -/
def SortedByWeight (head : List HuffmanNode) : Prop :=
  head.Pairwise (fun a b => a.weight ≤ b.weight)

/-- Sum of the weighted path lengths of the trees of the work list. -/
def forestCost (head : List HuffmanNode) : Int :=
  (head.map (fun t => weightedPathLength t 0)).sum

/-- All the nodes of a tree, the root first. -/
def nodes : HuffmanNode → List HuffmanNode
  | NULL => []
  | node d w l r => node d w l r :: (nodes l ++ nodes r)

/-- Number of nodes of a tree that have a child. -/
def internalCount : HuffmanNode → Nat
  | NULL => 0
  | node _ _ l r => if l.isNULL && r.isNULL then 0 else internalCount l + internalCount r + 1

/-- The node reached from `t` along a string, going left on '0' and right on '1'; `NULL` when
the walk leaves the tree or meets another character. -/
def walk : HuffmanNode → List Char → HuffmanNode
  | t, [] => t
  | t, c :: rest =>
    if c = '0' then walk t.left rest else if c = '1' then walk t.right rest else NULL

/-- The body of the `while` loop of `buildHuffmanTree` (lines 47-57) on a list of at least two
nodes: remove the first two and insert their parent. -/
def mergeStep : List HuffmanNode → List HuffmanNode
  | min1 :: min2 :: rest => insertNode rest (node NUL (min1.weight + min2.weight) min1 min2)
  | head => head

/-- Total weighted code length of a table generated from a tree: the sum over the table
entries of the weight of the leaf the entry was written for times the length of its code
(leaves and entries are both in left-to-right order). -/
def weightedCodeLength (root : HuffmanNode) (table : List HuffmanCode) : Int :=
  ((List.zip (leaves root) table).map (fun p => p.1.2 * (p.2.code.length : Int))).sum

/-- Total weighted code length by table lookup: the sum over the input entries of the weight
times the length of the code `findCode` returns for the symbol. -/
def lookupCodeLength (entries : List (Char × Int)) (table : List HuffmanCode) : Int :=
  (entries.map (fun e => e.2 * (((findCode table e.1).getD []).length : Int))).sum

/-- The values of `current` at the start of the iterations of the loop of `decodeString`
(lines 137-153) that are run, in order; the list stops where the loop stops early (an invalid
access or the `return NULL` of line 145). -/
def decodeStates (root : HuffmanNode) : HuffmanNode → List Char → List HuffmanNode
  | _, [] => []
  | current, bit :: rest =>
    current ::
      (if bit = '0' ∨ bit = '1' then
        match current with
        | NULL => []
        | node _ _ l r =>
          match (if bit = '0' then l else r) with
          | NULL => []
          | node d w l2 r2 =>
            if l2.isNULL && r2.isNULL then decodeStates root root rest
            else decodeStates root (node d w l2 r2) rest
      else [])

/-- The rows printed by menu option 3 (lines 588-590) for the `n` entries of `codes` and
`weights`: row `i` shows `codes[i].data`, `weights[i]` and `codes[i].code`. -/
def displayRows (codes : List HuffmanCode) (weights : List Int) :
    List (Char × Int × List Char) :=
  (List.zip codes weights).map (fun p => (p.1.data, p.2, p.1.code))

/-- The value of an integer as a 32-bit two's-complement `int`: what the machine stores when a
signed addition overflows. -/
def wrapInt (x : Int) : Int :=
  (x + 2147483648) % 4294967296 - 2147483648

/-- The `while` loop of `buildHuffmanTree` (lines 45-58) with an iteration budget, the sum of
line 52 being computed in 32-bit `int`.  `none` on the empty list is the read of
`(*head)->next` through a null `*head`. -/
def buildLoop32 : Nat → List HuffmanNode → Option HuffmanNode
  | _, [] => none
  | _, [root] => some root
  | 0, _ :: _ :: _ => none
  | fuel + 1, min1 :: min2 :: rest =>
    buildLoop32 fuel (insertNode rest (node NUL (wrapInt (min1.weight + min2.weight)) min1 min2))

/-- `buildHuffmanTree` (lines 43-60) with the sum of line 52 computed in 32-bit `int`. -/
def buildHuffmanTree32 (head : List HuffmanNode) : Option HuffmanNode :=
  buildLoop32 head.length head

/-- The set-up code of `main` (lines 505-520, 561-576, 756-770) with the sum of line 52
computed in 32-bit `int`. -/
def buildTreeAndCodes32 (entries : List (Char × Int)) (tempCode : List Char) :
    Option (HuffmanNode × List HuffmanCode) :=
  match buildHuffmanTree32 (buildList entries) with
  | none => none
  | some huffmanTree =>
    match generateHuffmanCodes huffmanTree ⟨[], entries.length, tempCode.set 0 NUL⟩ 0 with
    | none => none
    | some st => some (huffmanTree, st.codes)


/-! ## Strict binary trees: basic facts -/

theorem Full.ne_NULL {t : HuffmanNode} (h : Full t) : t.isNULL = false := by
  cases t with
  | NULL => exact absurd h (by simp [Full])
  | node d w l r => rfl

theorem full_createNode (d : Char) (w : Int) : Full (createNode d w) := by
  simp [createNode, Full]

theorem full_node {l r : HuffmanNode} (d : Char) (w : Int) (hl : Full l) (hr : Full r) :
    Full (node d w l r) := by
  simp only [Full]
  exact Or.inr ⟨hl, hr⟩

/-- Induction over strict binary trees: leaves, and nodes with two strict subtrees. -/
theorem Full.induction {P : HuffmanNode → Prop}
    (leaf : ∀ d w, P (node d w NULL NULL))
    (inner : ∀ d w l r, Full l → Full r → P l → P r → P (node d w l r)) :
    ∀ t, Full t → P t := by
  intro t
  induction t with
  | NULL => intro h; exact absurd h (by simp [Full])
  | node d w l r ihl ihr =>
    intro h
    simp only [Full] at h
    rcases h with ⟨rfl, rfl⟩ | ⟨hl, hr⟩
    · exact leaf d w
    · exact inner d w l r hl hr (ihl hl) (ihr hr)

theorem leaves_inner {l r : HuffmanNode} (d : Char) (w : Int) (hl : Full l) :
    leaves (node d w l r) = leaves l ++ leaves r := by
  simp [leaves, hl.ne_NULL]

theorem height_inner {l r : HuffmanNode} (d : Char) (w : Int) (hl : Full l) :
    height (node d w l r) = max (height l) (height r) + 1 := by
  simp [height, hl.ne_NULL]

theorem codesOf_inner {l r : HuffmanNode} (d : Char) (w : Int) (hl : Full l) (path : List Char) :
    codesOf (node d w l r) path = codesOf l (path ++ ['0']) ++ codesOf r (path ++ ['1']) := by
  simp [codesOf, hl.ne_NULL]

theorem isLeaf_inner {l r : HuffmanNode} (d : Char) (w : Int) (hl : Full l) :
    (node d w l r).isLeaf = false := by
  simp [isLeaf, hl.ne_NULL]

theorem leaves_ne_nil {t : HuffmanNode} (h : Full t) : leaves t ≠ [] := by
  refine Full.induction (P := fun t => leaves t ≠ []) ?_ ?_ t h
  · intro d w
    simp [leaves, isNULL]
  · intro d w l r hl hr ihl ihr
    simp [leaves_inner d w hl, ihl]

/-- A strict binary tree has more leaves than its height. -/
theorem height_lt_leaves {t : HuffmanNode} (h : Full t) : height t < (leaves t).length := by
  refine Full.induction (P := fun t => height t < (leaves t).length) ?_ ?_ t h
  · intro d w
    simp [leaves, height, isNULL]
  · intro d w l r hl hr ihl ihr
    simp only [leaves_inner d w hl, height_inner d w hl, List.length_append]
    have h1 : 0 < (leaves l).length := List.length_pos.mpr (leaves_ne_nil hl)
    have h2 : 0 < (leaves r).length := List.length_pos.mpr (leaves_ne_nil hr)
    rcases max_cases (height l) (height r) with ⟨h3, _⟩ | ⟨h3, _⟩ <;> omega

theorem codesOf_data {t : HuffmanNode} (h : Full t) (path : List Char) :
    (codesOf t path).map HuffmanCode.data = (leaves t).map Prod.fst := by
  revert path
  refine Full.induction
    (P := fun t => ∀ path, (codesOf t path).map HuffmanCode.data = (leaves t).map Prod.fst)
    ?_ ?_ t h
  · intro d w path
    simp [leaves, codesOf, isNULL]
  · intro d w l r hl hr ihl ihr path
    simp [leaves_inner d w hl, codesOf_inner d w hl, ihl, ihr]

/-- Codes relative to a path are the codes relative to the empty path, prefixed. -/
theorem codesOf_path {t : HuffmanNode} (h : Full t) (path : List Char) :
    codesOf t path = (codesOf t []).map (fun e => ⟨e.data, path ++ e.code⟩) := by
  revert path
  refine Full.induction
    (P := fun t => ∀ path, codesOf t path = (codesOf t []).map (fun e => ⟨e.data, path ++ e.code⟩))
    ?_ ?_ t h
  · intro d w path
    simp [codesOf, isNULL]
  · intro d w l r hl hr ihl ihr path
    rw [codesOf_inner d w hl, codesOf_inner d w hl, ihl (path ++ ['0']), ihr (path ++ ['1']),
      ihl ([] ++ ['0']), ihr ([] ++ ['1'])]
    simp [List.map_append, List.map_map, Function.comp_def]

/-! ## The work list -/

theorem insertNode_eq_insertAfter (head : List HuffmanNode) (newNode : HuffmanNode) :
    insertNode head newNode = insertAfter head newNode := by
  cases head with
  | nil => rfl
  | cons hd rest =>
    simp only [insertNode, insertAfter, gt_iff_lt]
    by_cases h : hd.weight ≤ newNode.weight
    · simp [h, not_lt.mpr h]
    · simp [h, not_le.mp h]

theorem insertAfter_perm (head : List HuffmanNode) (newNode : HuffmanNode) :
    (insertAfter head newNode).Perm (newNode :: head) := by
  induction head with
  | nil => simp [insertAfter]
  | cons hd rest ih =>
    simp only [insertAfter]
    split
    · exact (List.Perm.cons hd ih).trans (List.Perm.swap _ _ _)
    · exact List.Perm.refl _

theorem insertNode_perm (head : List HuffmanNode) (newNode : HuffmanNode) :
    (insertNode head newNode).Perm (newNode :: head) := by
  rw [insertNode_eq_insertAfter]
  exact insertAfter_perm head newNode

theorem insertNode_length (head : List HuffmanNode) (newNode : HuffmanNode) :
    (insertNode head newNode).length = head.length + 1 := by
  simpa using (insertNode_perm head newNode).length_eq

/-- The work list of `main` holds one fresh leaf per entry. -/
theorem buildList_perm (entries : List (Char × Int)) :
    (buildList entries).Perm (entries.map (fun e => createNode e.1 e.2)) := by
  unfold buildList
  have key : ∀ (es : List (Char × Int)) (acc : List HuffmanNode),
      (es.foldl (fun head e => insertNode head (createNode e.1 e.2)) acc).Perm
        (acc ++ es.map (fun e => createNode e.1 e.2)) := by
    intro es
    induction es with
    | nil => intro acc; simp
    | cons e es ih =>
      intro acc
      simp only [List.foldl_cons, List.map_cons]
      refine (ih _).trans ?_
      refine (List.Perm.append_right _ (insertNode_perm acc _)).trans ?_
      have hmid := @List.perm_middle _ (createNode e.1 e.2) acc
        (es.map (fun e => createNode e.1 e.2))
      simpa using hmid.symm
  simpa using key entries []

theorem buildList_length (entries : List (Char × Int)) :
    (buildList entries).length = entries.length := by
  simpa using (buildList_perm entries).length_eq

/-- The loop of `buildHuffmanTree` maintains a property of the work list that merging the two
first nodes preserves; with enough budget it ends with a single node having that property. -/
theorem buildLoop_invariant (Inv : List HuffmanNode → Prop)
    (step : ∀ min1 min2 rest, Inv (min1 :: min2 :: rest) →
      Inv (insertNode rest (node NUL (min1.weight + min2.weight) min1 min2))) :
    ∀ (fuel : Nat) (head : List HuffmanNode), head ≠ [] → head.length ≤ fuel + 1 → Inv head →
      ∃ root, buildLoop fuel head = some root ∧ Inv [root] := by
  intro fuel
  induction fuel with
  | zero =>
    intro head hne hlen hinv
    match head, hne, hlen, hinv with
    | [root], _, _, hinv => exact ⟨root, rfl, hinv⟩
    | _ :: _ :: _, _, hlen, _ => simp at hlen
  | succ fuel ih =>
    intro head hne hlen hinv
    match head, hne, hlen, hinv with
    | [root], _, _, hinv => exact ⟨root, rfl, hinv⟩
    | min1 :: min2 :: rest, _, hlen, hinv =>
      simp only [buildLoop]
      apply ih
      · intro h
        have := insertNode_length rest (node NUL (min1.weight + min2.weight) min1 min2)
        rw [h] at this
        simp at this
      · rw [insertNode_length]
        simp at hlen
        omega
      · exact step min1 min2 rest hinv

theorem buildHuffmanTree_invariant (Inv : List HuffmanNode → Prop)
    (step : ∀ min1 min2 rest, Inv (min1 :: min2 :: rest) →
      Inv (insertNode rest (node NUL (min1.weight + min2.weight) min1 min2)))
    (head : List HuffmanNode) (hne : head ≠ []) (hinv : Inv head) :
    ∃ root, buildHuffmanTree head = some root ∧ Inv [root] :=
  buildLoop_invariant Inv step head.length head hne (Nat.le_succ _) hinv

/-- Building from strict trees gives a strict tree with the same leaves, up to order. -/
theorem buildHuffmanTree_full (head : List HuffmanNode) (hne : head ≠ [])
    (hfull : ∀ t ∈ head, Full t) :
    ∃ root, buildHuffmanTree head = some root ∧ Full root ∧
      (leaves root).Perm (head.flatMap leaves) := by
  have h := buildHuffmanTree_invariant
    (fun l => (∀ t ∈ l, Full t) ∧ (l.flatMap leaves).Perm (head.flatMap leaves))
    (by
      intro min1 min2 rest ⟨hf, hp⟩
      have hperm := insertNode_perm rest (node NUL (min1.weight + min2.weight) min1 min2)
      have hf1 : Full min1 := hf min1 (by simp)
      have hf2 : Full min2 := hf min2 (by simp)
      constructor
      · intro t ht
        rcases List.mem_cons.mp (hperm.mem_iff.mp ht) with rfl | ht
        · exact full_node _ _ hf1 hf2
        · exact hf t (by simp [ht])
      · refine ((List.Perm.flatMap_right leaves hperm).trans ?_).trans hp
        simp [List.flatMap_cons, leaves_inner _ _ hf1])
    head hne ⟨hfull, List.Perm.refl _⟩
  obtain ⟨root, hb, hf, hp⟩ := h
  exact ⟨root, hb, hf root (by simp), by simpa using hp⟩

/-- The tree built by `main` from a non-empty alphabet: it exists, is strict, and its leaves
are the entries, up to order. -/
theorem build_entries (entries : List (Char × Int)) (hne : entries ≠ []) :
    ∃ root, buildHuffmanTree (buildList entries) = some root ∧ Full root ∧
      (leaves root).Perm entries := by
  have hne2 : buildList entries ≠ [] := by
    intro h
    have := buildList_length entries
    rw [h] at this
    exact hne (List.length_eq_zero.mp this.symm)
  have hfull : ∀ t ∈ buildList entries, Full t := by
    intro t ht
    obtain ⟨e, _, rfl⟩ := List.mem_map.mp ((buildList_perm entries).mem_iff.mp ht)
    exact full_createNode _ _
  obtain ⟨root, hb, hf, hp⟩ := buildHuffmanTree_full _ hne2 hfull
  refine ⟨root, hb, hf, hp.trans ?_⟩
  refine (List.Perm.flatMap_right leaves (buildList_perm entries)).trans ?_
  have : ∀ es : List (Char × Int),
      (es.map (fun e => createNode e.1 e.2)).flatMap leaves = es := by
    intro es
    induction es with
    | nil => rfl
    | cons e es ih =>
      simp only [List.map_cons, List.flatMap_cons, ih]
      simp [createNode, leaves, isNULL]
  rw [this]


/-! ## The scratch buffer of `generateHuffmanCodes` -/

theorem codesOf_length {t : HuffmanNode} (h : Full t) (path : List Char) :
    (codesOf t path).length = (leaves t).length := by
  have := congrArg List.length (codesOf_data h path)
  simpa using this

theorem cstring_append (p rest : List Char) (hp : NUL ∉ p) :
    cstring (p ++ NUL :: rest) = some p := by
  have hmem : NUL ∈ p ++ NUL :: rest := by simp
  have htw : (p ++ NUL :: rest).takeWhile (fun c => c ≠ NUL) = p := by
    induction p with
    | nil => simp [List.takeWhile]
    | cons c p ih =>
      have hc : c ≠ NUL := fun h => hp (by simp [h])
      have hp2 : NUL ∉ p := fun h => hp (by simp [h])
      rw [List.cons_append, List.takeWhile_cons]
      simp only [hc, ne_eq, not_false_eq_true, decide_True, if_true, List.cons.injEq, true_and]
      exact ih hp2 (by simp)
  simp only [cstring, hmem, if_true, htw]

theorem cstring_take (buf : List Char) (depth : Nat) (hp : NUL ∉ buf.take depth)
    (hz : buf[depth]? = some NUL) : cstring buf = some (buf.take depth) := by
  have hlt : depth < buf.length := by
    by_contra hge
    rw [List.getElem?_eq_none (not_lt.mp hge)] at hz
    exact absurd hz (by simp)
  have hsplit : buf = buf.take depth ++ NUL :: buf.drop (depth + 1) := by
    have h1 : buf.drop depth = NUL :: buf.drop (depth + 1) := by
      rw [List.drop_eq_getElem_cons hlt]
      rw [List.getElem?_eq_getElem hlt] at hz
      simp only [Option.some.injEq] at hz
      rw [hz]
    rw [← h1, List.take_append_drop]
  have := cstring_append (buf.take depth) (buf.drop (depth + 1)) hp
  rw [← hsplit] at this
  exact this

theorem take_set_of_le (a : Char) {n m : Nat} (l : List Char) (h : m ≤ n) :
    (l.set n a).take m = l.take m := by
  apply List.ext_getElem?
  intro i
  rw [List.getElem?_take, List.getElem?_take]
  split
  · rw [List.getElem?_set_ne (by omega)]
  · rfl

theorem writeBit_spec (buf : List Char) (depth : Nat) (bit : Char)
    (hlt : depth + 1 < buf.length) :
    ∃ buf1, writeBit buf depth bit = some buf1 ∧ buf1.length = buf.length ∧
      buf1.take (depth + 1) = buf.take depth ++ [bit] ∧ buf1[depth + 1]? = some NUL ∧
      buf1.take depth = buf.take depth := by
  have hd : depth < buf.length := by omega
  refine ⟨(buf.set depth bit).set (depth + 1) NUL, by simp [writeBit, hlt], by simp, ?_, ?_, ?_⟩
  · rw [take_set_of_le _ _ (Nat.le_refl _), List.set_eq_take_cons_drop _ hd]
    have hl : (List.take depth buf).length = depth := by simp; omega
    rw [List.take_append_eq_append_take, hl]
    simp
  · simp [List.getElem?_set, hlt]
  · rw [take_set_of_le _ _ (Nat.le_succ _), take_set_of_le _ _ (Nat.le_refl _)]

theorem take_of_take_succ {a b : List Char} {depth : Nat}
    (hab : a.take (depth + 1) = b.take (depth + 1)) : a.take depth = b.take depth := by
  have h1 : a.take depth = (a.take (depth + 1)).take depth := by
    rw [List.take_take]; simp
  have h2 : b.take depth = (b.take (depth + 1)).take depth := by
    rw [List.take_take]; simp
  rw [h1, h2, hab]

/-- On a strict tree, with a large enough table and scratch buffer whose first `depth`
characters are the path to the node followed by NUL, `generateHuffmanCodes` appends the
entries `codesOf` of the subtree and keeps the first `depth` characters of the buffer. -/
theorem generateHuffmanCodes_full {t : HuffmanNode} (h : Full t) :
    ∀ (cs : List HuffmanCode) (size : Nat) (buf : List Char) (depth : Nat),
      NUL ∉ buf.take depth → buf[depth]? = some NUL → depth + height t < buf.length →
      cs.length + (leaves t).length ≤ size →
      ∃ buf2, generateHuffmanCodes t ⟨cs, size, buf⟩ depth
            = some ⟨cs ++ codesOf t (buf.take depth), size, buf2⟩ ∧
          buf2.length = buf.length ∧ buf2.take depth = buf.take depth := by
  refine Full.induction
    (P := fun t => ∀ (cs : List HuffmanCode) (size : Nat) (buf : List Char) (depth : Nat),
      NUL ∉ buf.take depth → buf[depth]? = some NUL → depth + height t < buf.length →
      cs.length + (leaves t).length ≤ size →
      ∃ buf2, generateHuffmanCodes t ⟨cs, size, buf⟩ depth
            = some ⟨cs ++ codesOf t (buf.take depth), size, buf2⟩ ∧
          buf2.length = buf.length ∧ buf2.take depth = buf.take depth) ?_ ?_ t h
  · intro d w cs size buf depth hp hz hlen hsize
    refine ⟨buf, ?_, rfl, rfl⟩
    have hlt : depth ≤ buf.length := by simp [height, isNULL] at hlen; omega
    have hsz : cs.length < size := by simp [leaves, isNULL] at hsize; omega
    simp [generateHuffmanCodes, isNULL, cstring_take buf depth hp hz, codesOf, hsz, hlt]
  · intro d w l r hl hr ihl ihr cs size buf depth hp hz hlen hsize
    rw [height_inner d w hl] at hlen
    rw [leaves_inner d w hl, List.length_append] at hsize
    have hhl : height l ≤ max (height l) (height r) := le_max_left _ _
    have hhr : height r ≤ max (height l) (height r) := le_max_right _ _
    obtain ⟨buf1, hw1, hlen1, htake1, hz1, hd1⟩ := writeBit_spec buf depth '0' (by omega)
    have hp1 : NUL ∉ buf1.take (depth + 1) := by
      rw [htake1]
      intro hmem
      rcases List.mem_append.mp hmem with hmem | hmem
      · exact hp hmem
      · exact absurd (List.mem_singleton.mp hmem) (by decide)
    obtain ⟨buf2, hg2, hlen2, htake2⟩ :=
      ihl cs size buf1 (depth + 1) hp1 hz1 (by omega) (by omega)
    have hd2 : buf2.take depth = buf.take depth := (take_of_take_succ htake2).trans hd1
    obtain ⟨buf3, hw3, hlen3, htake3, hz3, hd3⟩ := writeBit_spec buf2 depth '1' (by omega)
    have hp3 : NUL ∉ buf3.take (depth + 1) := by
      rw [htake3, hd2]
      intro hmem
      rcases List.mem_append.mp hmem with hmem | hmem
      · exact hp hmem
      · exact absurd (List.mem_singleton.mp hmem) (by decide)
    obtain ⟨buf4, hg4, hlen4, htake4⟩ :=
      ihr (cs ++ codesOf l (buf1.take (depth + 1))) size buf3 (depth + 1) hp3 hz3 (by omega)
        (by rw [List.length_append, codesOf_length hl]; omega)
    refine ⟨buf4, ?_, by omega, ?_⟩
    · rw [htake1] at hg2
      rw [htake3, hd2, htake1] at hg4
      simp only [generateHuffmanCodes, hl.ne_NULL, hr.ne_NULL, Bool.false_and, hw1, hg2, hw3,
        hg4, codesOf_inner d w hl]
      simp [hw3, hg4]
    · exact ((take_of_take_succ htake4).trans hd3).trans hd2

/-- The set-up code of `main` succeeds on a non-empty alphabet: the tree is strict, its leaves
are the entries up to order, and the table is `codesOf` of the tree from the empty path. -/
theorem buildTreeAndCodes_spec (entries : List (Char × Int)) (tempCode : List Char)
    (hne : entries ≠ []) (hlen : tempCode.length = entries.length + 1) :
    ∃ root, buildTreeAndCodes entries tempCode = some (root, codesOf root []) ∧ Full root ∧
      (leaves root).Perm entries := by
  obtain ⟨root, hb, hf, hp⟩ := build_entries entries hne
  have hn : (leaves root).length = entries.length := hp.length_eq
  have hh := height_lt_leaves hf
  have h0 : (tempCode.set 0 NUL)[0]? = some NUL := by
    rw [List.getElem?_set]
    have : 0 < tempCode.length := by omega
    simp [this]
  have h1 : 0 + height root < (tempCode.set 0 NUL).length := by
    rw [List.length_set]; omega
  have h2 : ([] : List HuffmanCode).length + (leaves root).length ≤ entries.length := by
    rw [List.length_nil]; omega
  obtain ⟨buf2, hg, _, _⟩ := generateHuffmanCodes_full hf [] entries.length
    (tempCode.set 0 NUL) 0 (by simp) h0 h1 h2
  refine ⟨root, ?_, hf, hp⟩
  simp [buildTreeAndCodes, hb, hg]


/-! ## Encoding -/

theorem encodeLoop_eq (codes : List HuffmanCode) (str encoded : List Char) :
    encodeLoop codes str encoded = encoded ++ (codeList codes str).flatten := by
  induction str generalizing encoded with
  | nil => simp [encodeLoop, codeList]
  | cons ch rest ih =>
    simp only [encodeLoop, codeList, List.filterMap_cons]
    cases hfc : findCode codes ch with
    | none => simpa [codeList] using ih encoded
    | some code => simpa [codeList, List.append_assoc] using ih (encoded ++ code)

theorem encodeLength_eq (codes : List HuffmanCode) (str : List Char) (totalLen : Nat) :
    encodeLength codes str totalLen = totalLen + (codeList codes str).flatten.length := by
  induction str generalizing totalLen with
  | nil => simp [encodeLength, codeList]
  | cons ch rest ih =>
    simp only [encodeLength, codeList, List.filterMap_cons]
    cases hfc : findCode codes ch with
    | none => simpa [codeList] using ih totalLen
    | some code =>
      simp only [List.flatten_cons, List.length_append]
      rw [ih (totalLen + code.length)]
      simp [codeList, Nat.add_assoc]

/-- `encodeString` always returns the concatenation of the codes found, in input order. -/
theorem encodeString_eq (codes : List HuffmanCode) (str : List Char) :
    encodeString codes str = some (codeList codes str).flatten := by
  simp only [encodeString, encodeLoop_eq, encodeLength_eq, List.nil_append]
  rw [if_pos (by omega)]

theorem findCode_of_mem (codes : List HuffmanCode) (ch : Char)
    (h : ch ∈ codes.map HuffmanCode.data) :
    ∃ code, findCode codes ch = some code ∧ (⟨ch, code⟩ : HuffmanCode) ∈ codes := by
  induction codes with
  | nil => simp at h
  | cons entry rest ih =>
    simp only [findCode]
    by_cases hd : entry.data = ch
    · refine ⟨entry.code, by simp [hd], ?_⟩
      rw [← hd]
      exact List.mem_cons_self _ _
    · have hmem : ch ∈ rest.map HuffmanCode.data := by
        simp only [List.map_cons, List.mem_cons] at h
        rcases h with h | h
        · exact absurd h.symm hd
        · exact h
      obtain ⟨code, hc, hm⟩ := ih hmem
      exact ⟨code, by simp [hd, hc], List.mem_cons_of_mem _ hm⟩

theorem codeList_all_found (codes : List HuffmanCode) (str : List Char)
    (h : ∀ s ∈ str, s ∈ codes.map HuffmanCode.data) :
    codeList codes str = str.map (fun s => (findCode codes s).getD []) := by
  induction str with
  | nil => rfl
  | cons ch rest ih =>
    obtain ⟨code, hc, _⟩ := findCode_of_mem codes ch (h ch (List.mem_cons_self _ _))
    have ih2 := ih (fun s hs => h s (List.mem_cons_of_mem _ hs))
    simp only [codeList] at ih2
    simp [codeList, List.filterMap_cons, hc, ih2]

/-! ## Decoding -/

theorem ne_of_size_lt {a b : HuffmanNode} (h : size a < size b) : a ≠ b := by
  intro hab
  rw [hab] at h
  exact Nat.lt_irrefl _ h

/-- The entries of an inner node are those of its children, one branch character longer. -/
theorem mem_codesOf_inner {l r : HuffmanNode} (d : Char) (w : Int) (hl : Full l) (hr : Full r)
    {e : HuffmanCode} (he : e ∈ codesOf (node d w l r) []) :
    (∃ e2 ∈ codesOf l [], e = ⟨e2.data, '0' :: e2.code⟩) ∨
      (∃ e2 ∈ codesOf r [], e = ⟨e2.data, '1' :: e2.code⟩) := by
  rw [codesOf_inner d w hl, codesOf_path hl, codesOf_path hr] at he
  rcases List.mem_append.mp he with h | h
  · obtain ⟨e2, h2, rfl⟩ := List.mem_map.mp h
    exact Or.inl ⟨e2, h2, by simp⟩
  · obtain ⟨e2, h2, rfl⟩ := List.mem_map.mp h
    exact Or.inr ⟨e2, h2, by simp⟩

/-- One step of the decoding loop from an inner node into a child `c` that is a leaf. -/
theorem decodeLoop_step_leaf (root : HuffmanNode) (d : Char) (w : Int) (l r : HuffmanNode)
    (bit : Char) (hbit : bit = '0' ∨ bit = '1') (d2 : Char) (w2 : Int)
    (hc : (if bit = '0' then l else r) = node d2 w2 NULL NULL) (rest decoded : List Char) :
    decodeLoop root (node d w l r) (bit :: rest) decoded
      = decodeLoop root root rest (decoded ++ [d2]) := by
  simp only [decodeLoop, hbit, if_true, hc, isNULL, Bool.and_self]

/-- One step of the decoding loop from an inner node into a child `c` that is an inner node. -/
theorem decodeLoop_step_inner (root : HuffmanNode) (d : Char) (w : Int) (l r : HuffmanNode)
    (bit : Char) (hbit : bit = '0' ∨ bit = '1') (c : HuffmanNode) (hfull : Full c)
    (hleaf : c.isLeaf = false) (hc : (if bit = '0' then l else r) = c)
    (rest decoded : List Char) :
    decodeLoop root (node d w l r) (bit :: rest) decoded = decodeLoop root c rest decoded := by
  cases c with
  | NULL => exact absurd hfull (by simp [Full])
  | node d2 w2 l2 r2 =>
    simp only [isLeaf] at hleaf
    simp only [decodeLoop, hbit, if_true, hc, hleaf]
    simp

theorem full_cases {t : HuffmanNode} (h : Full t) :
    (∃ d w, t = node d w NULL NULL) ∨
      (∃ d w l r, t = node d w l r ∧ Full l ∧ Full r ∧ t.isLeaf = false) := by
  cases t with
  | NULL => exact absurd h (by simp [Full])
  | node d w l r =>
    simp only [Full] at h
    rcases h with ⟨rfl, rfl⟩ | ⟨hl, hr⟩
    · exact Or.inl ⟨d, w, rfl⟩
    · exact Or.inr ⟨d, w, l, r, rfl, hl, hr, isLeaf_inner d w hl⟩

/-- From an inner node of a strict tree, reading the code of one of its leaves emits the
symbol of that leaf and puts the decoder back at the root. -/
theorem decodeLoop_code {t : HuffmanNode} (h : Full t) :
    ∀ (root : HuffmanNode) (e : HuffmanCode) (rest decoded : List Char),
      e ∈ codesOf t [] → t.isLeaf = false →
      decodeLoop root t (e.code ++ rest) decoded
        = decodeLoop root root rest (decoded ++ [e.data]) := by
  refine Full.induction
    (P := fun t => ∀ (root : HuffmanNode) (e : HuffmanCode) (rest decoded : List Char),
      e ∈ codesOf t [] → t.isLeaf = false →
      decodeLoop root t (e.code ++ rest) decoded
        = decodeLoop root root rest (decoded ++ [e.data])) ?_ ?_ t h
  · intro d w root e rest decoded _ hleaf
    simp [isLeaf, isNULL] at hleaf
  · intro d w l r hl hr ihl ihr root e rest decoded he _
    rcases mem_codesOf_inner d w hl hr he with ⟨e2, h2, rfl⟩ | ⟨e2, h2, rfl⟩
    · rcases full_cases hl with ⟨d2, w2, rfl⟩ | ⟨d2, w2, l2, r2, rfl, _, _, hleaf⟩
      · simp only [codesOf, isNULL, Bool.and_self, if_true, List.mem_singleton] at h2
        subst h2
        exact decodeLoop_step_leaf root d w _ r '0' (Or.inl rfl) d2 w2 (by simp) rest decoded
      · rw [List.cons_append,
          decodeLoop_step_inner root d w _ r '0' (Or.inl rfl) _ hl hleaf (by simp)]
        exact ihl root e2 rest decoded h2 hleaf
    · rcases full_cases hr with ⟨d2, w2, rfl⟩ | ⟨d2, w2, l2, r2, rfl, _, _, hleaf⟩
      · simp only [codesOf, isNULL, Bool.and_self, if_true, List.mem_singleton] at h2
        subst h2
        exact decodeLoop_step_leaf root d w l _ '1' (Or.inr rfl) d2 w2 (by simp) rest decoded
      · rw [List.cons_append,
          decodeLoop_step_inner root d w l _ '1' (Or.inr rfl) _ hr hleaf (by simp)]
        exact ihr root e2 rest decoded h2 hleaf

/-- Decoding the encoding of `str`, followed by `rest`, from the root: all of `str` is
emitted and decoding goes on with `rest` from the root. -/
theorem decodeLoop_encoded {root : HuffmanNode} (h : Full root) (hleaf : root.isLeaf = false)
    (str : List Char) (hstr : ∀ s ∈ str, s ∈ (codesOf root []).map HuffmanCode.data)
    (rest decoded : List Char) :
    decodeLoop root root ((codeList (codesOf root []) str).flatten ++ rest) decoded
      = decodeLoop root root rest (decoded ++ str) := by
  induction str generalizing decoded with
  | nil => simp [codeList]
  | cons ch str ih =>
    obtain ⟨code, hc, hm⟩ := findCode_of_mem _ ch (hstr ch (List.mem_cons_self _ _))
    have ih2 := ih (fun s hs => hstr s (List.mem_cons_of_mem _ hs)) (decoded ++ [ch])
    simp only [codeList] at ih2
    simp only [codeList, List.filterMap_cons, hc, List.flatten_cons, List.append_assoc]
    rw [decodeLoop_code h root ⟨ch, code⟩ _ decoded hm hleaf, ih2]
    simp

theorem decodeString_node (d : Char) (w : Int) (l r : HuffmanNode) (bits : List Char) :
    decodeString (node d w l r) (some bits)
      = decodeLoop (node d w l r) (node d w l r) bits [] := rfl

theorem decodeString_full {root : HuffmanNode} (h : Full root) (bits : List Char) :
    decodeString root (some bits) = decodeLoop root root bits [] := by
  cases root with
  | NULL => exact absurd h (by simp [Full])
  | node d w l r => rfl

/-- A strict tree with at least two leaves is not a single leaf. -/
theorem isLeaf_of_two_leaves {t : HuffmanNode} (h : Full t) (h2 : 2 ≤ (leaves t).length) :
    t.isLeaf = false := by
  rcases full_cases h with ⟨d, w, rfl⟩ | ⟨d, w, l, r, rfl, _, _, hleaf⟩
  · simp [leaves, isNULL] at h2
  · exact hleaf

/-- Round trip on a strict tree that is not a single leaf. -/
theorem decode_encode {root : HuffmanNode} (h : Full root) (hleaf : root.isLeaf = false)
    (str : List Char) (hstr : ∀ s ∈ str, s ∈ (leaves root).map Prod.fst) :
    decodeString root (encodeString (codesOf root []) str) = DecodeResult.returns str false := by
  rw [encodeString_eq, decodeString_full h]
  have hstr2 : ∀ s ∈ str, s ∈ (codesOf root []).map HuffmanCode.data := by
    rw [codesOf_data h]
    exact hstr
  have := decodeLoop_encoded h hleaf str hstr2 [] []
  rw [List.append_nil] at this
  rw [this]
  simp [decodeLoop]

/-- From an inner node of a strict tree, reading a proper initial part `p` of the code of one
of its leaves emits nothing and stops at a node of the tree, below the start when `p` is not
empty. -/
theorem decodeLoop_partial {t : HuffmanNode} (h : Full t) :
    ∀ (root : HuffmanNode) (e : HuffmanCode) (p q decoded : List Char),
      e ∈ codesOf t [] → e.code = p ++ q → q ≠ [] →
      ∃ sub, size sub ≤ size t ∧ (p ≠ [] → size sub < size t) ∧
        decodeLoop root t p decoded = DecodeResult.returns decoded (decide (sub ≠ root)) := by
  refine Full.induction
    (P := fun t => ∀ (root : HuffmanNode) (e : HuffmanCode) (p q decoded : List Char),
      e ∈ codesOf t [] → e.code = p ++ q → q ≠ [] →
      ∃ sub, size sub ≤ size t ∧ (p ≠ [] → size sub < size t) ∧
        decodeLoop root t p decoded = DecodeResult.returns decoded (decide (sub ≠ root)))
    ?_ ?_ t h
  · intro d w root e p q decoded he hpq hq
    simp only [codesOf, isNULL, Bool.and_self, if_true, List.mem_singleton] at he
    subst he
    simp at hpq
    exact absurd hpq.2 hq
  · intro d w l r hl hr ihl ihr root e p q decoded he hpq hq
    cases p with
    | nil => exact ⟨node d w l r, Nat.le_refl _, fun hp => absurd rfl hp, by simp [decodeLoop]⟩
    | cons b p =>
      rcases mem_codesOf_inner d w hl hr he with ⟨e2, h2, rfl⟩ | ⟨e2, h2, rfl⟩
      · simp only [List.cons_append, List.cons.injEq] at hpq
        obtain ⟨hb, hpq⟩ := hpq
        subst hb
        rcases full_cases hl with ⟨d2, w2, rfl⟩ | ⟨d2, w2, l2, r2, rfl, _, _, hleaf⟩
        · simp only [codesOf, isNULL, Bool.and_self, if_true, List.mem_singleton] at h2
          subst h2
          simp at hpq
          exact absurd hpq.2 hq
        · rw [decodeLoop_step_inner root d w _ r '0' (Or.inl rfl) _ hl hleaf (by simp)]
          obtain ⟨sub, hs1, _, hs3⟩ := ihl root e2 p q decoded h2 hpq hq
          refine ⟨sub, ?_, fun _ => ?_, hs3⟩ <;> simp only [size] at hs1 ⊢ <;> omega
      · simp only [List.cons_append, List.cons.injEq] at hpq
        obtain ⟨hb, hpq⟩ := hpq
        subst hb
        rcases full_cases hr with ⟨d2, w2, rfl⟩ | ⟨d2, w2, l2, r2, rfl, _, _, hleaf⟩
        · simp only [codesOf, isNULL, Bool.and_self, if_true, List.mem_singleton] at h2
          subst h2
          simp at hpq
          exact absurd hpq.2 hq
        · rw [decodeLoop_step_inner root d w l _ '1' (Or.inr rfl) _ hr hleaf (by simp)]
          obtain ⟨sub, hs1, _, hs3⟩ := ihr root e2 p q decoded h2 hpq hq
          refine ⟨sub, ?_, fun _ => ?_, hs3⟩ <;> simp only [size] at hs1 ⊢ <;> omega

/-- In the table of a strict tree no code is an initial part of a code further on, nor the
other way round. -/
theorem codesOf_pairwise {t : HuffmanNode} (h : Full t) (path : List Char) :
    (codesOf t path).Pairwise (fun a b => ¬ a.code <+: b.code ∧ ¬ b.code <+: a.code) := by
  revert path
  refine Full.induction
    (P := fun t => ∀ path, (codesOf t path).Pairwise
      (fun a b => ¬ a.code <+: b.code ∧ ¬ b.code <+: a.code)) ?_ ?_ t h
  · intro d w path
    simp [codesOf, isNULL]
  · intro d w l r hl hr ihl ihr path
    rw [codesOf_inner d w hl, List.pairwise_append]
    refine ⟨ihl _, ihr _, ?_⟩
    intro a ha b hb
    rw [codesOf_path hl] at ha
    rw [codesOf_path hr] at hb
    obtain ⟨a2, _, rfl⟩ := List.mem_map.mp ha
    obtain ⟨b2, _, rfl⟩ := List.mem_map.mp hb
    simp only [List.append_assoc, List.singleton_append, List.prefix_append_right_inj]
    constructor
    · intro hp
      exact absurd (List.cons_prefix_cons.mp hp).1 (by decide)
    · intro hp
      exact absurd (List.cons_prefix_cons.mp hp).1 (by decide)

/-! ## Bit packing -/

theorem and_shift_ne_zero (byte j : Nat) : byte &&& (1 <<< j) ≠ 0 ↔ byte.testBit j = true := by
  rw [Nat.one_shiftLeft, Nat.and_two_pow]
  cases h : byte.testBit j <;> simp [h]

/-- Setting bit `m ≤ 7` in a byte: the value stays a byte and only that bit changes. -/
theorem setBit_byte (b m : Nat) (hb : b < 256) (hm : m ≤ 7) :
    (b ||| (1 <<< m)) % 256 < 256 ∧
      ∀ n, ((b ||| (1 <<< m)) % 256).testBit n = (b.testBit n || decide (m = n)) := by
  have hpow : (1 <<< m) < 2 ^ 8 := by
    rw [Nat.one_shiftLeft]
    exact Nat.pow_lt_pow_right (by norm_num) (by omega)
  have hlt : b ||| (1 <<< m) < 2 ^ 8 := Nat.or_lt_two_pow (by norm_num; exact hb) hpow
  have hmod : (b ||| (1 <<< m)) % 256 = b ||| (1 <<< m) := Nat.mod_eq_of_lt (by norm_num at hlt; exact hlt)
  refine ⟨Nat.mod_lt _ (by norm_num), fun n => ?_⟩
  rw [hmod, Nat.testBit_or, Nat.one_shiftLeft, Nat.testBit_two_pow]

theorem logicalBit_set (bytes : List Nat) (i k v : Nat) (hi : i / 8 < bytes.length) :
    logicalBit (bytes.set (i / 8) v) k
      = if k / 8 = i / 8 then v.testBit (7 - k % 8) else logicalBit bytes k := by
  simp only [logicalBit, List.getD_eq_getElem?_getD, List.getElem?_set]
  by_cases h : k / 8 = i / 8
  · simp [h, hi]
  · have h2 : ¬ i / 8 = k / 8 := fun h3 => h h3.symm
    simp [h, h2]

/-- The packing loop from index `i` keeps the number of bytes and their range, and sets exactly
the logical bits `k ≥ i` whose character `bs[k - i]` is `'1'`. -/
theorem packLoop_spec (bs : List Char) :
    ∀ (i : Nat) (bytes : List Nat), (∀ x ∈ bytes, x < 256) → i + bs.length ≤ 8 * bytes.length →
      (packLoop bs i bytes).length = bytes.length ∧ (∀ x ∈ packLoop bs i bytes, x < 256) ∧
      ∀ k, logicalBit (packLoop bs i bytes) k
        = (logicalBit bytes k || decide (i ≤ k ∧ bs[k - i]? = some '1')) := by
  induction bs with
  | nil =>
    intro i bytes hb _
    refine ⟨rfl, hb, fun k => ?_⟩
    simp [packLoop]
  | cons c rest ih =>
    intro i bytes hb hlen
    simp only [List.length_cons] at hlen
    by_cases hc : c = '1'
    · subst hc
      have hi : i / 8 < bytes.length := by omega
      have hbyte : bytes.getD (i / 8) 0 < 256 := by
        rw [List.getD_eq_getElem _ _ hi]
        exact hb _ (List.getElem_mem _)
      obtain ⟨hv, hbits⟩ := setBit_byte (bytes.getD (i / 8) 0) (7 - i % 8) hbyte (by omega)
      have hb2 : ∀ x ∈ bytes.set (i / 8) ((bytes.getD (i / 8) 0 ||| (1 <<< (7 - i % 8))) % 256),
          x < 256 := by
        intro x hx
        rcases List.mem_or_eq_of_mem_set hx with hx | hx
        · exact hb x hx
        · rw [hx]; exact hv
      obtain ⟨h1, h2, h3⟩ := ih (i + 1) _ hb2 (by rw [List.length_set]; omega)
      simp only [packLoop, if_true]
      refine ⟨by rw [h1, List.length_set], h2, fun k => ?_⟩
      rw [h3 k, logicalBit_set bytes i k _ hi]
      by_cases hki : k = i
      · subst hki
        rw [if_pos rfl, hbits]
        simp
      · by_cases hk8 : k / 8 = i / 8
        · have hne : ¬ (7 - i % 8 = 7 - k % 8) := by omega
          rw [if_pos hk8, hbits]
          have hlb : (bytes.getD (i / 8) 0).testBit (7 - k % 8) = logicalBit bytes k := by
            simp only [logicalBit, hk8]
          rw [hlb]
          by_cases hlt : i + 1 ≤ k
          · have hsub : k - i = (k - (i + 1)) + 1 := by omega
            have hik : i ≤ k := by omega
            simp [hne, hlt, hik, hsub]
          · have hik : ¬ i ≤ k := by omega
            simp [hne, hlt, hik]
        · rw [if_neg hk8]
          by_cases hlt : i + 1 ≤ k
          · have hsub : k - i = (k - (i + 1)) + 1 := by omega
            have hik : i ≤ k := by omega
            simp [hlt, hik, hsub]
          · have hik : ¬ i ≤ k := by omega
            simp [hlt, hik]
    · obtain ⟨h1, h2, h3⟩ := ih (i + 1) bytes hb (by omega)
      simp only [packLoop, if_neg hc]
      refine ⟨h1, h2, fun k => ?_⟩
      rw [h3 k]
      by_cases hki : k = i
      · subst hki
        simp [hc]
      · by_cases hlt : i + 1 ≤ k
        · have hsub : k - i = (k - (i + 1)) + 1 := by omega
          have hik : i ≤ k := by omega
          simp [hlt, hik, hsub]
        · have hik : ¬ i ≤ k := by omega
          simp [hlt, hik]

theorem logicalBit_replicate (n k : Nat) : logicalBit (List.replicate n 0) k = false := by
  simp only [logicalBit, List.getD_eq_getElem?_getD, List.getElem?_replicate]
  split <;> simp

/-- What `binaryStringToBytes` returns: `(L + 7) / 8` bytes, each below 256, whose logical bit
`k` is set exactly when `binaryStr[k]` is `'1'`. -/
theorem binaryStringToBytes_spec (binaryStr : List Char) :
    (binaryStringToBytes binaryStr).2 = (binaryStr.length + 7) / 8 ∧
    (binaryStringToBytes binaryStr).1.length = (binaryStr.length + 7) / 8 ∧
    (∀ x ∈ (binaryStringToBytes binaryStr).1, x < 256) ∧
    ∀ k, logicalBit (binaryStringToBytes binaryStr).1 k = decide (binaryStr[k]? = some '1') := by
  obtain ⟨h1, h2, h3⟩ := packLoop_spec binaryStr 0
    (List.replicate ((binaryStr.length + 7) / 8) 0)
    (by intro x hx; rw [(List.mem_replicate.mp hx).2]; norm_num)
    (by rw [List.length_replicate]; omega)
  refine ⟨rfl, ?_, h2, fun k => ?_⟩
  · simpa [binaryStringToBytes] using h1
  · have := h3 k
    simp only [logicalBit_replicate, Bool.false_or, Nat.zero_le, true_and, Nat.sub_zero] at this
    simpa [binaryStringToBytes] using this

/-- The inner unpacking loop appends the bits `j - 1, j - 2, ...` of the byte, as many as fit
below `bitCount`. -/
theorem unpackByte_spec (byte bitCount : Nat) :
    ∀ (j : Nat) (s : List Char),
      unpackByte byte bitCount j s
        = s ++ (List.range (min j (bitCount - s.length))).map
            (fun m => if byte.testBit (j - 1 - m) then '1' else '0') := by
  intro j
  induction j with
  | zero => intro s; simp [unpackByte]
  | succ j ih =>
    intro s
    simp only [unpackByte]
    by_cases hlt : s.length < bitCount
    · rw [if_pos hlt, ih]
      have hmin : min (j + 1) (bitCount - s.length)
          = min j (bitCount - (s ++ [if byte &&& (1 <<< j) ≠ 0 then '1' else '0']).length) + 1 := by
        simp only [List.length_append, List.length_singleton]
        omega
      rw [hmin, List.range_succ_eq_map, List.map_cons, List.map_map, List.append_assoc]
      congr 1
      simp only [List.singleton_append, Nat.add_sub_cancel, Nat.sub_zero]
      congr 1
      · by_cases hb : byte.testBit j = true
        · simp [hb, (and_shift_ne_zero byte j).mpr hb]
        · have hz : ¬ (byte &&& (1 <<< j) ≠ 0) := fun h => hb ((and_shift_ne_zero byte j).mp h)
          simp only [ne_eq, not_not] at hz
          simp [hb, hz]
      · apply List.map_congr_left
        intro m _
        simp only [Function.comp, Nat.succ_eq_add_one]
        have : j - (m + 1) = j - 1 - m := by omega
        rw [this]
    · rw [if_neg hlt]
      have : bitCount - s.length = 0 := by omega
      simp [this]

theorem bitChar_add (bytes : List Nat) (i m byte : Nat) (hbyte : bytes[i]? = some byte)
    (hm : m < 8) : bitChar bytes (8 * i + m) = if byte.testBit (7 - m) then '1' else '0' := by
  have h1 : (8 * i + m) / 8 = i := by omega
  have h2 : (8 * i + m) % 8 = m := by omega
  simp [bitChar, logicalBit, h1, h2, List.getD_eq_getElem?_getD, hbyte]

/-- The outer unpacking loop: with `k` bytes to go and the bits of the bytes before them
already written, it ends with the first `bitCount` logical bits, or all of them if fewer. -/
theorem unpackLoop_spec (bytes : List Nat) (byteCount bitCount : Nat)
    (hbytes : byteCount ≤ bytes.length) :
    ∀ (k : Nat) (s : List Char), k ≤ byteCount →
      s = (List.range (min (8 * (byteCount - k)) bitCount)).map (bitChar bytes) →
      unpackLoop bytes byteCount bitCount k s
        = some ((List.range (min (8 * byteCount) bitCount)).map (bitChar bytes)) := by
  intro k
  induction k with
  | zero =>
    intro s _ hs
    simp [unpackLoop, hs]
  | succ k ih =>
    intro s hk hs
    have hslen : s.length = min (8 * (byteCount - (k + 1))) bitCount := by
      rw [hs]; simp
    simp only [unpackLoop]
    by_cases hlt : s.length < bitCount
    · rw [if_pos hlt]
      have hi : byteCount - (k + 1) < bytes.length := by omega
      rw [List.getElem?_eq_getElem hi]
      simp only
      apply ih _ (by omega)
      rw [unpackByte_spec]
      have h8 : s.length = 8 * (byteCount - (k + 1)) := by omega
      have hrange : min (8 * (byteCount - k)) bitCount
          = 8 * (byteCount - (k + 1)) + min 8 (bitCount - s.length) := by omega
      rw [hrange, List.range_add, List.map_append, List.map_map]
      have hmin : min (8 * (byteCount - (k + 1))) bitCount = 8 * (byteCount - (k + 1)) := by
        omega
      rw [hs, hmin]
      congr 1
      apply List.map_congr_left
      intro m hm
      have hm8 : m < 8 := by
        have := List.mem_range.mp hm
        omega
      simp only [Function.comp]
      rw [bitChar_add bytes _ m _ (List.getElem?_eq_getElem hi) hm8]
    · rw [if_neg hlt]
      have h1 : min (8 * (byteCount - (k + 1))) bitCount = bitCount := by omega
      have h2 : min (8 * byteCount) bitCount = bitCount := by omega
      rw [hs, h1, h2]

/-- What `bytesToBinaryString` returns on a buffer that is long enough: the characters of the
first `bitCount` logical bits. -/
theorem bytesToBinaryString_spec (bytes : List Nat) (byteCount bitCount : Nat)
    (hbytes : byteCount ≤ bytes.length) (hbits : bitCount ≤ 8 * byteCount) :
    bytesToBinaryString bytes byteCount bitCount
      = some ((List.range bitCount).map (bitChar bytes)) := by
  have h := unpackLoop_spec bytes byteCount bitCount hbytes byteCount [] (Nat.le_refl _)
    (by simp)
  have hmin : min (8 * byteCount) bitCount = bitCount := by omega
  rw [hmin] at h
  simp [bytesToBinaryString, h]

/-! ## Weighted path length -/

theorem depthPairs_inner {l r : HuffmanNode} (d : Char) (w : Int) (hl : Full l) (k : Nat) :
    depthPairs (node d w l r) k = depthPairs l (k + 1) ++ depthPairs r (k + 1) := by
  simp [depthPairs, hl.ne_NULL]

theorem weightedPathLength_inner {l r : HuffmanNode} (d : Char) (w : Int) (hl : Full l)
    (k : Nat) :
    weightedPathLength (node d w l r) k
      = weightedPathLength l (k + 1) + weightedPathLength r (k + 1) := by
  simp [weightedPathLength, hl.ne_NULL]

theorem pairCost_append (ps qs : List (Int × Nat)) :
    pairCost (ps ++ qs) = pairCost ps + pairCost qs := by
  simp [pairCost]

theorem pairCost_cons (p : Int × Nat) (ps : List (Int × Nat)) :
    pairCost (p :: ps) = p.1 * (p.2 : Int) + pairCost ps := by
  simp [pairCost]

theorem pairCost_perm {ps qs : List (Int × Nat)} (h : ps.Perm qs) : pairCost ps = pairCost qs :=
  (h.map _).sum_eq

theorem weightedPathLength_eq_pairCost {t : HuffmanNode} (h : Full t) (k : Nat) :
    weightedPathLength t k = pairCost (depthPairs t k) := by
  revert k
  refine Full.induction
    (P := fun t => ∀ k, weightedPathLength t k = pairCost (depthPairs t k)) ?_ ?_ t h
  · intro d w k
    simp [weightedPathLength, depthPairs, pairCost, isNULL]
  · intro d w l r hl hr ihl ihr k
    rw [weightedPathLength_inner d w hl, depthPairs_inner d w hl, pairCost_append, ihl, ihr]

theorem depthPairs_fst {t : HuffmanNode} (h : Full t) (k : Nat) :
    (depthPairs t k).map Prod.fst = (leaves t).map Prod.snd := by
  revert k
  refine Full.induction
    (P := fun t => ∀ k, (depthPairs t k).map Prod.fst = (leaves t).map Prod.snd) ?_ ?_ t h
  · intro d w k
    simp [depthPairs, leaves, isNULL]
  · intro d w l r hl hr ihl ihr k
    rw [depthPairs_inner d w hl, leaves_inner d w hl, List.map_append, List.map_append, ihl, ihr]

theorem weightSum_inner {l r : HuffmanNode} (d : Char) (w : Int) (hl : Full l) :
    weightSum (node d w l r) = weightSum l + weightSum r := by
  simp [weightSum, leaves_inner d w hl]

/-- Moving a tree one level down adds the sum of its leaf weights to the path length. -/
theorem weightedPathLength_succ {t : HuffmanNode} (h : Full t) (k : Nat) :
    weightedPathLength t (k + 1) = weightedPathLength t k + weightSum t := by
  revert k
  refine Full.induction
    (P := fun t => ∀ k, weightedPathLength t (k + 1) = weightedPathLength t k + weightSum t)
    ?_ ?_ t h
  · intro d w k
    simp [weightedPathLength, weightSum, leaves, isNULL]
    ring
  · intro d w l r hl hr ihl ihr k
    rw [weightedPathLength_inner d w hl, weightedPathLength_inner d w hl,
      weightSum_inner d w hl, ihl (k + 1), ihr (k + 1)]
    ring

/-- Path length of a merged node, in terms of its two subtrees. -/
theorem weightedPathLength_merge {l r : HuffmanNode} (d : Char) (w : Int) (hl : Full l)
    (hr : Full r) :
    weightedPathLength (node d w l r) 0
      = weightedPathLength l 0 + weightedPathLength r 0 + (weightSum l + weightSum r) := by
  rw [weightedPathLength_inner d w hl, weightedPathLength_succ hl, weightedPathLength_succ hr]
  ring

theorem depthPairs_length {t : HuffmanNode} (h : Full t) (k : Nat) :
    (depthPairs t k).length = (leaves t).length := by
  have := congrArg List.length (depthPairs_fst h k)
  simpa using this

theorem depthPairs_le {t : HuffmanNode} (h : Full t) (k : Nat) :
    ∀ p ∈ depthPairs t k, p.2 ≤ k + height t := by
  revert k
  refine Full.induction
    (P := fun t => ∀ k, ∀ p ∈ depthPairs t k, p.2 ≤ k + height t) ?_ ?_ t h
  · intro d w k p hp
    simp [depthPairs, isNULL] at hp
    simp [hp]
  · intro d w l r hl hr ihl ihr k p hp
    rw [depthPairs_inner d w hl] at hp
    rw [height_inner d w hl]
    have h1 : height l ≤ max (height l) (height r) := le_max_left _ _
    have h2 : height r ≤ max (height l) (height r) := le_max_right _ _
    rcases List.mem_append.mp hp with hp | hp
    · have := ihl (k + 1) p hp
      omega
    · have := ihr (k + 1) p hp
      omega

theorem height_pos {t : HuffmanNode} (h : Full t) (hleaf : t.isLeaf = false) :
    1 ≤ height t := by
  rcases full_cases h with ⟨d, w, rfl⟩ | ⟨d, w, l, r, rfl, hl, _, _⟩
  · simp [isLeaf, isNULL] at hleaf
  · rw [height_inner d w hl]
    omega

theorem height_leaf {t : HuffmanNode} (hleaf : t.isLeaf = true) : height t = 0 := by
  cases t with
  | NULL => rfl
  | node d w l r =>
    simp only [isLeaf] at hleaf
    simp [height, hleaf]

/-- In a strict tree that is not a leaf, two leaves of greatest depth can be merged into one
leaf one level up: the depths of the result are those of the tree with two entries of the
greatest depth `k + height` replaced by one entry a level higher. -/
theorem depths_merge {t : HuffmanNode} (h : Full t) :
    t.isLeaf = false → ∀ k, ∃ (rest : List Nat) (u : HuffmanNode),
      ((depthPairs t k).map Prod.snd).Perm ((k + height t) :: (k + height t) :: rest) ∧
      Full u ∧ ((depthPairs u k).map Prod.snd).Perm ((k + height t - 1) :: rest) := by
  refine Full.induction
    (P := fun t => t.isLeaf = false → ∀ k, ∃ (rest : List Nat) (u : HuffmanNode),
      ((depthPairs t k).map Prod.snd).Perm ((k + height t) :: (k + height t) :: rest) ∧
      Full u ∧ ((depthPairs u k).map Prod.snd).Perm ((k + height t - 1) :: rest)) ?_ ?_ t h
  · intro d w hleaf
    simp [isLeaf, isNULL] at hleaf
  · intro d w l r hl hr ihl ihr _ k
    rw [depthPairs_inner d w hl, height_inner d w hl, List.map_append]
    by_cases hll : l.isLeaf = true
    · by_cases hrl : r.isLeaf = true
      · -- both children are leaves
        rcases full_cases hl with ⟨d1, w1, rfl⟩ | ⟨_, _, _, _, rfl, _, _, hx⟩
        · rcases full_cases hr with ⟨d2, w2, rfl⟩ | ⟨_, _, _, _, rfl, _, _, hy⟩
          · refine ⟨[], node d w NULL NULL, ?_, by simp [Full], ?_⟩
            · simp [depthPairs, height, isNULL]
            · simp [depthPairs, height, isNULL]
          · rw [hy] at hrl; exact absurd hrl (by simp)
        · rw [hx] at hll; exact absurd hll (by simp)
      · -- the left child is a leaf, the right one is not: merge in the right subtree
        have hrl2 : r.isLeaf = false := by simpa using hrl
        obtain ⟨rest, u, hp, hu, hq⟩ := ihr hrl2 (k + 1)
        have hmax : max (height l) (height r) = height r := by
          rw [height_leaf hll]; simp
        rw [hmax]
        have e1 : k + (height r + 1) = k + 1 + height r := by omega
        rw [e1]
        refine ⟨(depthPairs l (k + 1)).map Prod.snd ++ rest, node d w l u, ?_, full_node d w hl hu,
          ?_⟩
        · refine (List.Perm.append_left _ hp).trans ?_
          refine List.perm_middle.trans (List.Perm.cons _ ?_)
          exact List.perm_middle
        · rw [depthPairs_inner d w hl, List.map_append]
          refine (List.Perm.append_left _ hq).trans ?_
          exact List.perm_middle
    · have hll2 : l.isLeaf = false := by simpa using hll
      by_cases hcmp : height r ≤ height l
      · -- merge in the left subtree
        obtain ⟨rest, u, hp, hu, hq⟩ := ihl hll2 (k + 1)
        have hmax : max (height l) (height r) = height l := max_eq_left hcmp
        rw [hmax]
        have e1 : k + (height l + 1) = k + 1 + height l := by omega
        rw [e1]
        refine ⟨rest ++ (depthPairs r (k + 1)).map Prod.snd, node d w u r, ?_,
          full_node d w hu hr, ?_⟩
        · exact List.Perm.append_right _ hp
        · rw [depthPairs_inner d w hu, List.map_append]
          exact List.Perm.append_right _ hq
      · -- the right subtree is higher, hence not a leaf: merge there
        have hlt : height l < height r := by omega
        have hrl2 : r.isLeaf = false := by
          by_contra hc
          have : r.isLeaf = true := by simpa using hc
          rw [height_leaf this] at hlt
          omega
        obtain ⟨rest, u, hp, hu, hq⟩ := ihr hrl2 (k + 1)
        have hmax : max (height l) (height r) = height r := max_eq_right (by omega)
        rw [hmax]
        have e1 : k + (height r + 1) = k + 1 + height r := by omega
        rw [e1]
        refine ⟨(depthPairs l (k + 1)).map Prod.snd ++ rest, node d w l u, ?_, full_node d w hl hu,
          ?_⟩
        · refine (List.Perm.append_left _ hp).trans ?_
          refine List.perm_middle.trans (List.Perm.cons _ ?_)
          exact List.perm_middle
        · rw [depthPairs_inner d w hl, List.map_append]
          refine (List.Perm.append_left _ hq).trans ?_
          exact List.perm_middle

/-! ## The exchange argument on (weight, depth) pairs -/

theorem isLeaf_true_of_one_leaf {t : HuffmanNode} (h : Full t) (h1 : (leaves t).length = 1) :
    t.isLeaf = true := by
  by_contra hc
  have hc2 : t.isLeaf = false := by simpa using hc
  rcases full_cases h with ⟨d, w, rfl⟩ | ⟨d, w, l, r, rfl, hl, hr, _⟩
  · simp [isLeaf, isNULL] at hc2
  · rw [leaves_inner d w hl, List.length_append] at h1
    have := List.length_pos.mpr (leaves_ne_nil hl)
    have := List.length_pos.mpr (leaves_ne_nil hr)
    omega

/-- The only one-element list of leaf depths is `[0]`. -/
theorem isDepths_singleton {d : Nat} (h : IsDepths [d]) : d = 0 := by
  obtain ⟨u, hu, hp⟩ := h
  have hlen : (leaves u).length = 1 := by
    have := hp.length_eq
    simp only [List.length_singleton, List.length_map] at this
    rw [← depthPairs_length hu 0, ← this]
  have hleaf := isLeaf_true_of_one_leaf hu hlen
  rcases full_cases hu with ⟨d2, w2, rfl⟩ | ⟨_, _, _, _, rfl, _, _, hx⟩
  · simp [depthPairs, isNULL] at hp
    exact hp
  · rw [hx] at hleaf; exact absurd hleaf (by simp)

/-- A list of at least two leaf depths has two entries of the greatest depth `D ≥ 1`, and
replacing them by one entry `D - 1` gives a list of leaf depths again. -/
theorem isDepths_merge {ds : List Nat} (h : IsDepths ds) (h2 : 2 ≤ ds.length) :
    ∃ (D : Nat) (rest : List Nat), 1 ≤ D ∧ ds.Perm (D :: D :: rest) ∧ (∀ x ∈ ds, x ≤ D) ∧
      IsDepths ((D - 1) :: rest) := by
  obtain ⟨u, hu, hp⟩ := h
  have hlen : 2 ≤ (leaves u).length := by
    rw [← depthPairs_length hu 0]
    have := hp.length_eq
    simp only [List.length_map] at this
    omega
  have hleaf := isLeaf_of_two_leaves hu hlen
  obtain ⟨rest, v, hq, hv, hr⟩ := depths_merge hu hleaf 0
  refine ⟨0 + height u, rest, ?_, hp.trans hq, ?_, ⟨v, hv, hr.symm⟩⟩
  · have := height_pos hu hleaf
    omega
  · intro x hx
    obtain ⟨p, hp2, rfl⟩ := List.mem_map.mp (hp.mem_iff.mp hx)
    exact depthPairs_le hu 0 p hp2

theorem exists_perm_cons {p : Int × Nat} {ps : List (Int × Nat)} (hp : p ∈ ps) :
    ∃ qs, ps.Perm (p :: qs) := by
  obtain ⟨s, t, rfl⟩ := List.append_of_mem hp
  exact ⟨s ++ t, List.perm_middle⟩

/-- Giving the greatest depth `D` to a weight `a` that is at most every weight of `ps`, in
exchange for its depth `d`, does not increase the cost. -/
theorem swap_depth (a : Int) (d D : Nat) (ps : List (Int × Nat)) (ha : ∀ p ∈ ps, a ≤ p.1)
    (hd : d ≤ D) (hmem : D ∈ d :: ps.map Prod.snd) :
    ∃ qs : List (Int × Nat), (qs.map Prod.fst).Perm (ps.map Prod.fst) ∧
      (D :: qs.map Prod.snd).Perm (d :: ps.map Prod.snd) ∧
      a * (D : Int) + pairCost qs ≤ a * (d : Int) + pairCost ps := by
  by_cases hDd : D = d
  · subst hDd
    exact ⟨ps, List.Perm.refl _, List.Perm.refl _, le_refl _⟩
  · have hmem2 : D ∈ ps.map Prod.snd := by
      rcases List.mem_cons.mp hmem with h | h
      · exact absurd h hDd
      · exact h
    obtain ⟨p, hp, hpD⟩ := List.mem_map.mp hmem2
    obtain ⟨rest, hperm⟩ := exists_perm_cons hp
    refine ⟨(p.1, d) :: rest, ?_, ?_, ?_⟩
    · exact (hperm.map Prod.fst).symm
    · have h1 := (hperm.map Prod.snd).symm
      simp only [List.map_cons] at h1 ⊢
      rw [hpD] at h1
      exact (List.Perm.swap _ _ _).trans (List.Perm.cons d h1)
    · rw [pairCost_perm hperm, pairCost_cons, pairCost_cons, hpD]
      have h1 : a ≤ p.1 := ha p hp
      have h2 : (d : Int) ≤ (D : Int) := by exact_mod_cast hd
      simp only
      nlinarith [mul_nonneg (sub_nonneg.mpr h1) (sub_nonneg.mpr h2)]

theorem exists_pair_of_fst_mem {ps : List (Int × Nat)} {a : Int} {ws : List Int}
    (h : (ps.map Prod.fst).Perm (a :: ws)) :
    ∃ (p : Int × Nat) (qs : List (Int × Nat)), p.1 = a ∧ ps.Perm (p :: qs) ∧
      (qs.map Prod.fst).Perm ws := by
  have hmem : a ∈ ps.map Prod.fst := h.mem_iff.mpr (List.mem_cons_self _ _)
  obtain ⟨p, hp, hpa⟩ := List.mem_map.mp hmem
  obtain ⟨rest, hperm⟩ := exists_perm_cons hp
  refine ⟨p, rest, hpa, hperm, ?_⟩
  have h1 := (hperm.map Prod.fst).symm.trans h
  simp only [List.map_cons, hpa] at h1
  exact (List.perm_cons a).mp h1

/-- The step of the optimality proof on pairs: if `a` and `b` are two least weights, an
assignment of leaf depths to the weights can be turned, at a cost lower by at least `a + b`,
into an assignment of leaf depths to the weights with `a` and `b` replaced by `a + b`. -/
theorem merge_pairs (ps : List (Int × Nat)) (a b : Int) (ws : List Int)
    (hw : (ps.map Prod.fst).Perm (a :: b :: ws)) (hab : a ≤ b) (ha : ∀ x ∈ ws, a ≤ x)
    (hb : ∀ x ∈ ws, b ≤ x) (hdepths : IsDepths (ps.map Prod.snd)) :
    ∃ qs : List (Int × Nat), (qs.map Prod.fst).Perm ((a + b) :: ws) ∧
      IsDepths (qs.map Prod.snd) ∧ pairCost qs + (a + b) ≤ pairCost ps := by
  have hlen : 2 ≤ (ps.map Prod.snd).length := by
    have := hw.length_eq
    simp only [List.length_map, List.length_cons] at this ⊢
    omega
  obtain ⟨D, rest, hD1, hperm, hmax, hmerged⟩ := isDepths_merge hdepths hlen
  -- the pair of `a`
  obtain ⟨p1, q1, hp1, hps1, hq1w⟩ := exists_pair_of_fst_mem hw
  have hd1 : (p1.2 :: q1.map Prod.snd).Perm (D :: D :: rest) := by
    have := (hps1.map Prod.snd).symm.trans hperm
    simpa using this
  have hmax1 : ∀ x ∈ p1.2 :: q1.map Prod.snd, x ≤ D := by
    intro x hx
    exact hmax x ((hps1.map Prod.snd).mem_iff.mpr (by simpa using hx))
  obtain ⟨q1s, hq1sw, hq1sd, hcost1⟩ := swap_depth a p1.2 D q1
    (by
      intro p hp
      have : p.1 ∈ b :: ws := hq1w.mem_iff.mp (List.mem_map_of_mem _ hp)
      rcases List.mem_cons.mp this with h | h
      · rw [h]; exact hab
      · exact ha _ h)
    (hmax1 _ (List.mem_cons_self _ _))
    (hd1.mem_iff.mpr (List.mem_cons_self _ _))
  have hq1sd2 : (q1s.map Prod.snd).Perm (D :: rest) :=
    (List.perm_cons D).mp (hq1sd.trans hd1)
  -- the pair of `b`
  obtain ⟨p2, q2, hp2, hps2, hq2w⟩ := exists_pair_of_fst_mem (hq1sw.trans hq1w)
  have hd2 : (p2.2 :: q2.map Prod.snd).Perm (D :: rest) := by
    have := (hps2.map Prod.snd).symm.trans hq1sd2
    simpa using this
  have hrest : ∀ x ∈ D :: rest, x ≤ D := by
    intro x hx
    exact hmax x (hperm.mem_iff.mpr (List.mem_cons_of_mem _ hx))
  obtain ⟨q2s, hq2sw, hq2sd, hcost2⟩ := swap_depth b p2.2 D q2
    (by
      intro p hp
      exact hb _ (hq2w.mem_iff.mp (List.mem_map_of_mem _ hp)))
    (hrest _ (hd2.mem_iff.mp (List.mem_cons_self _ _)))
    (hd2.mem_iff.mpr (List.mem_cons_self _ _))
  have hq2sd2 : (q2s.map Prod.snd).Perm rest :=
    (List.perm_cons D).mp (hq2sd.trans hd2)
  refine ⟨(a + b, D - 1) :: q2s, ?_, ?_, ?_⟩
  · simp only [List.map_cons]
    exact List.Perm.cons _ (hq2sw.trans hq2w)
  · obtain ⟨u, hu, hpu⟩ := hmerged
    refine ⟨u, hu, ?_⟩
    simp only [List.map_cons]
    exact (List.Perm.cons _ hq2sd2).trans hpu
  · have e1 : pairCost ps = a * (p1.2 : Int) + pairCost q1 := by
      rw [pairCost_perm hps1, pairCost_cons, hp1]
    have e2 : pairCost q1s = b * (p2.2 : Int) + pairCost q2 := by
      rw [pairCost_perm hps2, pairCost_cons, hp2]
    have e3 : ((D - 1 : Nat) : Int) = (D : Int) - 1 := by
      rw [Nat.cast_sub hD1]; simp
    rw [pairCost_cons]
    simp only
    rw [e3, e1]
    rw [e2] at hcost1
    nlinarith [hcost1, hcost2]

/-! ## Order of the work list -/

theorem insertAfter_sorted (head : List HuffmanNode) (newNode : HuffmanNode)
    (h : SortedByWeight head) : SortedByWeight (insertAfter head newNode) := by
  unfold SortedByWeight at h ⊢
  induction head with
  | nil => simp [insertAfter]
  | cons hd rest ih =>
    rw [List.pairwise_cons] at h
    simp only [insertAfter]
    split
    · rename_i hle
      rw [List.pairwise_cons]
      refine ⟨?_, ih h.2⟩
      intro b hb
      rcases List.mem_cons.mp ((insertAfter_perm rest newNode).mem_iff.mp hb) with rfl | hb
      · exact hle
      · exact h.1 b hb
    · rename_i hgt
      have hlt : newNode.weight ≤ hd.weight := le_of_lt (not_le.mp hgt)
      rw [List.pairwise_cons]
      refine ⟨?_, List.pairwise_cons.mpr h⟩
      intro b hb
      rcases List.mem_cons.mp hb with rfl | hb
      · exact hlt
      · exact le_trans hlt (h.1 b hb)

theorem insertNode_sorted (head : List HuffmanNode) (newNode : HuffmanNode)
    (h : SortedByWeight head) : SortedByWeight (insertNode head newNode) := by
  rw [insertNode_eq_insertAfter]
  exact insertAfter_sorted head newNode h

theorem buildList_sorted (entries : List (Char × Int)) : SortedByWeight (buildList entries) := by
  unfold buildList
  have key : ∀ (es : List (Char × Int)) (acc : List HuffmanNode), SortedByWeight acc →
      SortedByWeight (es.foldl (fun head e => insertNode head (createNode e.1 e.2)) acc) := by
    intro es
    induction es with
    | nil => intro acc hacc; exact hacc
    | cons e es ih =>
      intro acc hacc
      exact ih _ (insertNode_sorted acc _ hacc)
  exact key entries [] List.Pairwise.nil

/-! ## Optimality of the built tree -/

theorem forestCost_perm {l1 l2 : List HuffmanNode} (h : l1.Perm l2) :
    forestCost l1 = forestCost l2 :=
  (h.map _).sum_eq

/-- One merge step of `buildHuffmanTree` keeps the work list sorted and its trees strict with
the weight field equal to the sum of the leaf weights; and an assignment of leaf depths to the
weights of the list can be adapted to the new list without raising the total cost. -/
theorem merge_step (K : Int) (min1 min2 : HuffmanNode) (rest : List HuffmanNode)
    (hsorted : SortedByWeight (min1 :: min2 :: rest))
    (htrees : ∀ t ∈ min1 :: min2 :: rest, Full t ∧ t.weight = weightSum t)
    (hps : ∃ ps : List (Int × Nat),
      (ps.map Prod.fst).Perm ((min1 :: min2 :: rest).map weight) ∧ IsDepths (ps.map Prod.snd) ∧
      forestCost (min1 :: min2 :: rest) + pairCost ps ≤ K) :
    SortedByWeight (insertNode rest (node NUL (min1.weight + min2.weight) min1 min2)) ∧
    (∀ t ∈ insertNode rest (node NUL (min1.weight + min2.weight) min1 min2),
      Full t ∧ t.weight = weightSum t) ∧
    ∃ ps : List (Int × Nat),
      (ps.map Prod.fst).Perm
        ((insertNode rest (node NUL (min1.weight + min2.weight) min1 min2)).map weight) ∧
      IsDepths (ps.map Prod.snd) ∧
      forestCost (insertNode rest (node NUL (min1.weight + min2.weight) min1 min2))
        + pairCost ps ≤ K := by
  have hperm := insertNode_perm rest (node NUL (min1.weight + min2.weight) min1 min2)
  obtain ⟨hf1, hw1⟩ := htrees min1 (by simp)
  obtain ⟨hf2, hw2⟩ := htrees min2 (by simp)
  unfold SortedByWeight at hsorted
  rw [List.pairwise_cons, List.pairwise_cons] at hsorted
  obtain ⟨h1, h2, h3⟩ := hsorted
  refine ⟨insertNode_sorted rest _ h3, ?_, ?_⟩
  · intro t ht
    rcases List.mem_cons.mp (hperm.mem_iff.mp ht) with rfl | ht
    · refine ⟨full_node _ _ hf1 hf2, ?_⟩
      rw [weightSum_inner _ _ hf1, ← hw1, ← hw2]
      rfl
    · exact htrees t (by simp [ht])
  · obtain ⟨ps, hpw, hpd, hcost⟩ := hps
    obtain ⟨qs, hqw, hqd, hqcost⟩ := merge_pairs ps min1.weight min2.weight (rest.map weight)
      (by simpa using hpw) (h1 min2 (by simp))
      (by
        intro x hx
        obtain ⟨t, ht, rfl⟩ := List.mem_map.mp hx
        exact h1 t (by simp [ht]))
      (by
        intro x hx
        obtain ⟨t, ht, rfl⟩ := List.mem_map.mp hx
        exact h2 t ht)
      hpd
    refine ⟨qs, ?_, hqd, ?_⟩
    · refine hqw.trans ?_
      have := (hperm.map weight).symm
      simpa [weight] using this
    · rw [forestCost_perm hperm]
      have e1 : forestCost (node NUL (min1.weight + min2.weight) min1 min2 :: rest)
          = forestCost (min1 :: min2 :: rest) + (min1.weight + min2.weight) := by
        simp only [forestCost, List.map_cons, List.sum_cons]
        rw [weightedPathLength_merge _ _ hf1 hf2, ← hw1, ← hw2]
        ring
      rw [e1]
      linarith

/-- A lower bound on the cost of every assignment of leaf depths to the weights of a sorted
work list is, after building, a lower bound for the built tree. -/
theorem buildHuffmanTree_cost (head : List HuffmanNode) (hne : head ≠ [])
    (hsorted : SortedByWeight head) (htrees : ∀ t ∈ head, Full t ∧ t.weight = weightSum t)
    (ps : List (Int × Nat)) (hpw : (ps.map Prod.fst).Perm (head.map weight))
    (hpd : IsDepths (ps.map Prod.snd)) :
    ∃ root, buildHuffmanTree head = some root ∧
      weightedPathLength root 0 ≤ forestCost head + pairCost ps := by
  obtain ⟨root, hb, _, _, qs, hqw, hqd, hcost⟩ := buildHuffmanTree_invariant
    (fun l => SortedByWeight l ∧ (∀ t ∈ l, Full t ∧ t.weight = weightSum t) ∧
      ∃ qs : List (Int × Nat), (qs.map Prod.fst).Perm (l.map weight) ∧
        IsDepths (qs.map Prod.snd) ∧ forestCost l + pairCost qs ≤ forestCost head + pairCost ps)
    (fun min1 min2 rest ⟨h1, h2, h3⟩ => merge_step _ min1 min2 rest h1 h2 h3)
    head hne ⟨hsorted, htrees, ps, hpw, hpd, le_refl _⟩
  refine ⟨root, hb, ?_⟩
  have hlen : qs.length = 1 := by
    have := hqw.length_eq
    simpa using this
  obtain ⟨p, rfl⟩ := List.length_eq_one.mp hlen
  have hd : p.2 = 0 := isDepths_singleton (by simpa using hqd)
  have hzero : pairCost [p] = 0 := by
    simp [pairCost, hd]
  rw [hzero] at hcost
  simpa [forestCost] using hcost

theorem forestCost_createNode (entries : List (Char × Int)) :
    forestCost (entries.map (fun e => createNode e.1 e.2)) = 0 := by
  induction entries with
  | nil => rfl
  | cons e es ih =>
    simp only [forestCost, List.map_cons, List.sum_cons] at ih ⊢
    rw [ih]
    simp [createNode, weightedPathLength, isNULL]

/-! ## The generated table -/

/-- The state `generateHuffmanCodes` ends in when `main` runs it on the built tree. -/
theorem generate_built (entries : List (Char × Int)) (tempCode : List Char)
    (hne : entries ≠ []) (hlen : tempCode.length = entries.length + 1) :
    ∃ root st, buildHuffmanTree (buildList entries) = some root ∧
      generateHuffmanCodes root ⟨[], entries.length, tempCode.set 0 NUL⟩ 0 = some st ∧
      st.codes = codesOf root [] ∧ st.size = entries.length ∧ Full root ∧
      (leaves root).Perm entries ∧ st.code.length = tempCode.length := by
  obtain ⟨root, hb, hf, hp⟩ := build_entries entries hne
  have hn : (leaves root).length = entries.length := hp.length_eq
  have hh := height_lt_leaves hf
  have h0 : (tempCode.set 0 NUL)[0]? = some NUL := by
    rw [List.getElem?_set]
    have : 0 < tempCode.length := by omega
    simp [this]
  have h1 : 0 + height root < (tempCode.set 0 NUL).length := by
    rw [List.length_set]; omega
  have h2 : ([] : List HuffmanCode).length + (leaves root).length ≤ entries.length := by
    rw [List.length_nil]; omega
  obtain ⟨buf2, hg, hlen2, _⟩ := generateHuffmanCodes_full hf [] entries.length
    (tempCode.set 0 NUL) 0 (by simp) h0 h1 h2
  refine ⟨root, _, hb, hg, ?_, rfl, hf, hp, ?_⟩
  · simp
  · simpa using hlen2

theorem code_length_le_height {t : HuffmanNode} (h : Full t) :
    ∀ e ∈ codesOf t [], e.code.length ≤ height t := by
  refine Full.induction (P := fun t => ∀ e ∈ codesOf t [], e.code.length ≤ height t) ?_ ?_ t h
  · intro d w e he
    simp only [codesOf, isNULL, Bool.and_self, if_true, List.mem_singleton] at he
    subst he
    simp
  · intro d w l r hl hr ihl ihr e he
    rw [height_inner d w hl]
    have h1 : height l ≤ max (height l) (height r) := le_max_left _ _
    have h2 : height r ≤ max (height l) (height r) := le_max_right _ _
    rcases mem_codesOf_inner d w hl hr he with ⟨e2, he2, rfl⟩ | ⟨e2, he2, rfl⟩
    · have := ihl e2 he2
      simp only [List.length_cons]
      omega
    · have := ihr e2 he2
      simp only [List.length_cons]
      omega

theorem code_length_pos {t : HuffmanNode} (h : Full t) (hleaf : t.isLeaf = false) :
    ∀ e ∈ codesOf t [], 1 ≤ e.code.length := by
  intro e he
  rcases full_cases h with ⟨d, w, rfl⟩ | ⟨d, w, l, r, rfl, hl, hr, _⟩
  · simp [isLeaf, isNULL] at hleaf
  · rcases mem_codesOf_inner d w hl hr he with ⟨e2, _, rfl⟩ | ⟨e2, _, rfl⟩ <;> simp

/-! ## Walking along a code -/

theorem walk_NULL (path : List Char) : walk NULL path = NULL := by
  induction path with
  | nil => rfl
  | cons c rest ih =>
    simp only [walk, left, right, ih]
    split
    · rfl
    · split <;> rfl

/-- Walking from a strict tree along the code of an entry ends at a leaf with the symbol of
the entry. -/
theorem walk_code {t : HuffmanNode} (h : Full t) :
    ∀ e ∈ codesOf t [], ∃ w, walk t e.code = node e.data w NULL NULL := by
  refine Full.induction
    (P := fun t => ∀ e ∈ codesOf t [], ∃ w, walk t e.code = node e.data w NULL NULL) ?_ ?_ t h
  · intro d w e he
    simp only [codesOf, isNULL, Bool.and_self, if_true, List.mem_singleton] at he
    subst he
    exact ⟨w, rfl⟩
  · intro d w l r hl hr ihl ihr e he
    rcases mem_codesOf_inner d w hl hr he with ⟨e2, he2, rfl⟩ | ⟨e2, he2, rfl⟩
    · obtain ⟨w2, hw2⟩ := ihl e2 he2
      exact ⟨w2, by simpa [walk, left] using hw2⟩
    · obtain ⟨w2, hw2⟩ := ihr e2 he2
      refine ⟨w2, ?_⟩
      have h10 : ¬ ('1' = '0') := by decide
      simpa [walk, right, h10] using hw2

/-- Every path from a strict tree to a leaf is the code of an entry. -/
theorem leaf_path_code {t : HuffmanNode} (h : Full t) :
    ∀ path, (walk t path).isLeaf = true → ∃ e ∈ codesOf t [], e.code = path := by
  refine Full.induction
    (P := fun t => ∀ path, (walk t path).isLeaf = true → ∃ e ∈ codesOf t [], e.code = path)
    ?_ ?_ t h
  · intro d w path hp
    cases path with
    | nil => exact ⟨⟨d, []⟩, by simp [codesOf, isNULL], rfl⟩
    | cons c rest =>
      simp only [walk, left, right, walk_NULL] at hp
      split at hp
      · simp [isLeaf] at hp
      · split at hp <;> simp [isLeaf] at hp
  · intro d w l r hl hr ihl ihr path hp
    cases path with
    | nil =>
      simp only [walk] at hp
      rw [isLeaf_inner d w hl] at hp
      exact absurd hp (by simp)
    | cons c rest =>
      simp only [walk, left, right] at hp
      rw [codesOf_inner d w hl, codesOf_path hl, codesOf_path hr]
      by_cases h0 : c = '0'
      · rw [if_pos h0] at hp
        obtain ⟨e2, he2, hc⟩ := ihl rest hp
        refine ⟨⟨e2.data, [] ++ ['0'] ++ e2.code⟩, ?_, by simp [h0, hc]⟩
        exact List.mem_append_left _ (List.mem_map.mpr ⟨e2, he2, rfl⟩)
      · rw [if_neg h0] at hp
        by_cases h1 : c = '1'
        · rw [if_pos h1] at hp
          obtain ⟨e2, he2, hc⟩ := ihr rest hp
          refine ⟨⟨e2.data, [] ++ ['1'] ++ e2.code⟩, ?_, by simp [h1, hc]⟩
          exact List.mem_append_right _ (List.mem_map.mpr ⟨e2, he2, rfl⟩)
        · rw [if_neg h1] at hp
          simp [isLeaf] at hp

/-- The codes of the table of a strict tree are pairwise distinct. -/
theorem codes_nodup {t : HuffmanNode} (h : Full t) :
    ((codesOf t []).map HuffmanCode.code).Nodup := by
  rw [List.Nodup, List.pairwise_map]
  refine (codesOf_pairwise h []).imp ?_
  intro a b hab heq
  exact hab.1 (heq ▸ List.prefix_refl _)

/-- Two positions of the table of a strict tree that hold the same code are the same. -/
theorem code_index_unique {t : HuffmanNode} (h : Full t) (i j : Nat)
    (hi : i < (codesOf t []).length) (hj : j < (codesOf t []).length)
    (heq : (codesOf t [])[i].code = (codesOf t [])[j].code) : i = j := by
  have hpw := codesOf_pairwise h []
  rw [List.pairwise_iff_getElem] at hpw
  by_contra hij
  rcases Nat.lt_or_gt_of_ne hij with hlt | hgt
  · exact (hpw i j hi hj hlt).1 (heq ▸ List.prefix_refl _)
  · exact (hpw j i hj hi hgt).2 (heq ▸ List.prefix_refl _)

/-! ## Iterations of the build loop -/

theorem mergeStep_length (min1 min2 : HuffmanNode) (rest : List HuffmanNode) :
    (mergeStep (min1 :: min2 :: rest)).length = rest.length + 1 := by
  simp [mergeStep, insertNode_length]

/-- On a list of `k + 1` nodes the loop of `buildHuffmanTree` needs exactly `k` iterations:
any budget of at least `k` gives the root, a smaller one runs out; the root is what `k`
applications of the loop body leave in the list, and before that the list has two nodes or
more. -/
theorem buildLoop_exact :
    ∀ (k : Nat) (head : List HuffmanNode), head.length = k + 1 →
      ∃ root, mergeStep^[k] head = [root] ∧
        (∀ fuel, k ≤ fuel → buildLoop fuel head = some root) ∧
        (∀ fuel, fuel < k → buildLoop fuel head = none) ∧
        (∀ j, j < k → (mergeStep^[j] head).length = k + 1 - j) := by
  intro k
  induction k with
  | zero =>
    intro head hlen
    obtain ⟨root, rfl⟩ := List.length_eq_one.mp (by simpa using hlen)
    refine ⟨root, rfl, ?_, ?_, ?_⟩
    · intro fuel _
      cases fuel <;> rfl
    · intro fuel hf
      exact absurd hf (Nat.not_lt_zero _)
    · intro j hj
      exact absurd hj (Nat.not_lt_zero _)
  | succ k ih =>
    intro head hlen
    match head, hlen with
    | [], hlen => simp at hlen
    | [_], hlen => simp at hlen
    | min1 :: min2 :: rest, hlen =>
      have hlen2 : (mergeStep (min1 :: min2 :: rest)).length = k + 1 := by
        rw [mergeStep_length]
        simp only [List.length_cons] at hlen
        omega
      obtain ⟨root, hit, hge, hlt, hlist⟩ := ih _ hlen2
      refine ⟨root, ?_, ?_, ?_, ?_⟩
      · rw [Function.iterate_succ_apply]
        exact hit
      · intro fuel hf
        cases fuel with
        | zero => exact absurd hf (by omega)
        | succ f => exact hge f (by omega)
      · intro fuel hf
        cases fuel with
        | zero => rfl
        | succ f => exact hlt f (by omega)
      · intro j hj
        cases j with
        | zero => simpa using hlen
        | succ j =>
          rw [Function.iterate_succ_apply, hlist j (by omega)]
          omega

theorem internalCount_full {t : HuffmanNode} (h : Full t) :
    internalCount t + 1 = (leaves t).length := by
  refine Full.induction (P := fun t => internalCount t + 1 = (leaves t).length) ?_ ?_ t h
  · intro d w
    simp [internalCount, leaves, isNULL]
  · intro d w l r hl hr ihl ihr
    rw [leaves_inner d w hl, List.length_append]
    simp only [internalCount, hl.ne_NULL, Bool.false_and]
    simp only [Bool.false_eq_true, if_false]
    omega

theorem full_of_isLeaf {t : HuffmanNode} (h : t.isLeaf = true) :
    Full t ∧ (leaves t).length = 1 := by
  cases t with
  | NULL => simp [isLeaf] at h
  | node d w l r =>
    simp only [isLeaf, Bool.and_eq_true] at h
    cases l <;> cases r <;> simp [isNULL] at h
    simp [Full, leaves, isNULL]

/-! ## Position of an inserted node -/

/-- Where `insertNode` puts the new node: after the nodes of weight at most its own that
precede the first node of greater weight, the rest of the list following unchanged. -/
theorem insertAfter_split (head : List HuffmanNode) (newNode : HuffmanNode) :
    ∃ before after, head = before ++ after ∧
      insertAfter head newNode = before ++ newNode :: after ∧
      (∀ x ∈ before, x.weight ≤ newNode.weight) ∧
      (∀ x, after.head? = some x → newNode.weight < x.weight) := by
  induction head with
  | nil => exact ⟨[], [], rfl, rfl, by simp, by simp⟩
  | cons hd rest ih =>
    simp only [insertAfter]
    by_cases hle : hd.weight ≤ newNode.weight
    · obtain ⟨before, after, h1, h2, h3, h4⟩ := ih
      refine ⟨hd :: before, after, by rw [h1]; rfl, by rw [if_pos hle, h2]; rfl, ?_, h4⟩
      intro x hx
      rcases List.mem_cons.mp hx with rfl | hx
      · exact hle
      · exact h3 x hx
    · refine ⟨[], hd :: rest, rfl, by rw [if_neg hle]; rfl, by simp, ?_⟩
      intro x hx
      simp only [List.head?_cons, Option.some.injEq] at hx
      subst hx
      exact not_le.mp hle

/-! ## The decoder on arbitrary input -/

/-- From an inner node of a strict tree whose root is not a leaf, the decoding loop returns
`NULL` when the input holds a character other than '0' and '1', and otherwise returns a
string with at most one more character per input bit. -/
theorem decodeLoop_total {root : HuffmanNode} (hroot : Full root)
    (hrl : root.isLeaf = false) :
    ∀ (bits : List Char) (current : HuffmanNode) (decoded : List Char),
      Full current → current.isLeaf = false →
      ((∃ c ∈ bits, c ≠ '0' ∧ c ≠ '1') →
        decodeLoop root current bits decoded = DecodeResult.returnsNULL) ∧
      ((∀ c ∈ bits, c = '0' ∨ c = '1') →
        ∃ out incomplete,
          decodeLoop root current bits decoded = DecodeResult.returns out incomplete ∧
          out.length ≤ decoded.length + bits.length) := by
  intro bits
  induction bits with
  | nil =>
    intro current decoded _ _
    refine ⟨fun ⟨c, hc, _⟩ => absurd hc (List.not_mem_nil c), fun _ => ?_⟩
    exact ⟨decoded, decide (current ≠ root), by simp [decodeLoop], by simp⟩
  | cons b rest ih =>
    intro current decoded hcur hcl
    rcases full_cases hcur with ⟨d, w, rfl⟩ | ⟨d, w, l, r, rfl, hl, hr, _⟩
    · simp [isLeaf, isNULL] at hcl
    · by_cases hb : b = '0' ∨ b = '1'
      · -- a legal bit: one step down, or back to the root after a leaf
        have hchild : Full (if b = '0' then l else r) := by
          split
          · exact hl
          · exact hr
        have hstep : ∃ next dec2, Full next ∧ next.isLeaf = false ∧
            dec2.length ≤ decoded.length + 1 ∧
            decodeLoop root (node d w l r) (b :: rest) decoded
              = decodeLoop root next rest dec2 := by
          rcases full_cases hchild with ⟨d2, w2, hc⟩ | ⟨d2, w2, l2, r2, hc, _, _, hleaf⟩
          · exact ⟨root, decoded ++ [d2], hroot, hrl, by simp,
              decodeLoop_step_leaf root d w l r b hb d2 w2 hc rest decoded⟩
          · exact ⟨_, decoded, hchild, hleaf, by omega,
              decodeLoop_step_inner root d w l r b hb _ hchild hleaf rfl rest decoded⟩
        obtain ⟨next, dec2, hn1, hn2, hlen, heq⟩ := hstep
        obtain ⟨ih1, ih2⟩ := ih next dec2 hn1 hn2
        rw [heq]
        constructor
        · rintro ⟨c, hc, hc0, hc1⟩
          rcases List.mem_cons.mp hc with rfl | hc
          · rcases hb with hb | hb
            · exact absurd hb hc0
            · exact absurd hb hc1
          · exact ih1 ⟨c, hc, hc0, hc1⟩
        · intro hall
          obtain ⟨out, inc, ho, hol⟩ := ih2 (fun c hc => hall c (List.mem_cons_of_mem _ hc))
          refine ⟨out, inc, ho, ?_⟩
          simp only [List.length_cons]
          omega
      · -- an illegal character
        constructor
        · intro _
          simp [decodeLoop, hb]
        · intro hall
          exact absurd (hall b (List.mem_cons_self _ _)) hb

/-! ## Total weighted code length -/

/-- The built tree has the least weighted path length among the strict trees with the same
leaf weights. -/
theorem built_tree_minimal (entries : List (Char × Int)) (hne : entries ≠ [])
    (root : HuffmanNode) (hb : buildHuffmanTree (buildList entries) = some root)
    (u : HuffmanNode) (hu : Full u)
    (hperm : ((leaves u).map Prod.snd).Perm (entries.map Prod.snd)) :
    weightedPathLength root 0 ≤ weightedPathLength u 0 := by
  have hlist := buildList_perm entries
  have hne2 : buildList entries ≠ [] := by
    intro h
    have := buildList_length entries
    rw [h] at this
    exact hne (List.length_eq_zero.mp this.symm)
  have htrees : ∀ t ∈ buildList entries, Full t ∧ t.weight = weightSum t := by
    intro t ht
    obtain ⟨e, _, rfl⟩ := List.mem_map.mp (hlist.mem_iff.mp ht)
    exact ⟨full_createNode _ _, by simp [createNode, weight, weightSum, leaves, isNULL]⟩
  have hweights : ((depthPairs u 0).map Prod.fst).Perm ((buildList entries).map weight) := by
    rw [depthPairs_fst hu]
    refine hperm.trans ?_
    have := (hlist.map weight).symm
    simpa [Function.comp_def, createNode, weight] using this
  obtain ⟨root2, hb2, hcost⟩ := buildHuffmanTree_cost (buildList entries) hne2
    (buildList_sorted entries) htrees (depthPairs u 0) hweights ⟨u, hu, List.Perm.refl _⟩
  rw [hb] at hb2
  obtain rfl := Option.some.inj hb2
  rw [forestCost_perm hlist, forestCost_createNode, zero_add,
    ← weightedPathLength_eq_pairCost hu] at hcost
  exact hcost

/-- Along the table of a strict tree the code of a leaf at depth `d` below the node has
`path.length + d` characters, so weight times code length sums to the weighted path length. -/
theorem zip_codes_cost {t : HuffmanNode} (h : Full t) (path : List Char) :
    ((List.zip (leaves t) (codesOf t path)).map
        (fun p => p.1.2 * (p.2.code.length : Int))).sum
      = weightedPathLength t path.length := by
  revert path
  refine Full.induction
    (P := fun t => ∀ path, ((List.zip (leaves t) (codesOf t path)).map
        (fun p => p.1.2 * (p.2.code.length : Int))).sum = weightedPathLength t path.length)
    ?_ ?_ t h
  · intro d w path
    simp [leaves, codesOf, weightedPathLength, isNULL]
  · intro d w l r hl hr ihl ihr path
    rw [leaves_inner d w hl, codesOf_inner d w hl, weightedPathLength_inner d w hl,
      List.zip_append (codesOf_length hl _).symm, List.map_append, List.sum_append,
      ihl, ihr]
    simp

theorem weightedCodeLength_eq {t : HuffmanNode} (h : Full t) :
    weightedCodeLength t (codesOf t []) = weightedPathLength t 0 := by
  simpa [weightedCodeLength] using zip_codes_cost h []

/-- In a table without repeated symbols `findCode` returns the code of each entry. -/
theorem findCode_nodup (codes : List HuffmanCode) (hnd : (codes.map HuffmanCode.data).Nodup)
    (e : HuffmanCode) (he : e ∈ codes) : findCode codes e.data = some e.code := by
  induction codes with
  | nil => simp at he
  | cons entry rest ih =>
    simp only [List.map_cons, List.nodup_cons] at hnd
    simp only [findCode]
    rcases List.mem_cons.mp he with rfl | he
    · simp
    · have hne : entry.data ≠ e.data := by
        intro heq
        exact hnd.1 (heq ▸ List.mem_map_of_mem _ he)
      rw [if_neg hne]
      exact ih hnd.2 he

theorem zip_aligned (ls : List (Char × Int)) :
    ∀ (tbl : List HuffmanCode), tbl.map HuffmanCode.data = ls.map Prod.fst →
      ∀ p ∈ List.zip ls tbl, p.2.data = p.1.1 := by
  induction ls with
  | nil => intro tbl _ p hp; simp at hp
  | cons l ls ih =>
    intro tbl htbl p hp
    cases tbl with
    | nil => simp at hp
    | cons e tbl =>
      simp only [List.map_cons, List.cons.injEq] at htbl
      simp only [List.zip_cons_cons, List.mem_cons] at hp
      rcases hp with rfl | hp
      · exact htbl.1
      · exact ih tbl htbl.2 p hp

/-- When looking up the symbol of each leaf gives the code written for that leaf, the sum by
lookup over the leaves is the sum along the table. -/
theorem lookup_sum_zip (table : List HuffmanCode) (ls : List (Char × Int)) :
    ∀ (tbl : List HuffmanCode), ls.length = tbl.length →
      (∀ p ∈ List.zip ls tbl, findCode table p.1.1 = some p.2.code) →
      (ls.map (fun e => e.2 * (((findCode table e.1).getD []).length : Int))).sum
        = ((List.zip ls tbl).map (fun p => p.1.2 * (p.2.code.length : Int))).sum := by
  induction ls with
  | nil => intro tbl _ _; simp
  | cons l ls ih =>
    intro tbl hlen hfind
    cases tbl with
    | nil => simp at hlen
    | cons e tbl =>
      simp only [List.length_cons, Nat.add_right_cancel_iff] at hlen
      have h1 := hfind (l, e) (by simp)
      simp only at h1
      have h2 := ih tbl hlen (fun p hp => hfind p (by simp [hp]))
      simp only [List.map_cons, List.sum_cons, List.zip_cons_cons, h1, Option.getD_some, h2]

/-- For an alphabet without repeated symbols, the sum by lookup over the input entries is the
sum along the table. -/
theorem lookupCodeLength_eq {root : HuffmanNode} (h : Full root) (entries : List (Char × Int))
    (hp : (leaves root).Perm entries) (hnd : (entries.map Prod.fst).Nodup) :
    lookupCodeLength entries (codesOf root []) = weightedCodeLength root (codesOf root []) := by
  have hdata := codesOf_data h []
  have hnd2 : ((codesOf root []).map HuffmanCode.data).Nodup := by
    rw [hdata]
    exact ((hp.map Prod.fst).nodup_iff).mpr hnd
  have hsum : lookupCodeLength entries (codesOf root [])
      = lookupCodeLength (leaves root) (codesOf root []) :=
    ((hp.map _).sum_eq).symm
  rw [hsum]
  unfold lookupCodeLength weightedCodeLength
  apply lookup_sum_zip _ _ _ (codesOf_length h []).symm
  intro p hpz
  have hal := zip_aligned (leaves root) (codesOf root []) hdata p hpz
  have hmem : p.2 ∈ codesOf root [] := (List.of_mem_zip (a := p.1) (b := p.2) hpz).2
  rw [← hal]
  exact findCode_nodup _ hnd2 p.2 hmem

/-- The set-up code of `main` on a non-empty alphabet, with the tree named as the result of
`buildHuffmanTree`. -/
theorem setup_built (entries : List (Char × Int)) (tempCode : List Char)
    (hne : entries ≠ []) (hlen : tempCode.length = entries.length + 1) :
    ∃ root, buildHuffmanTree (buildList entries) = some root ∧
      buildTreeAndCodes entries tempCode = some (root, codesOf root []) ∧ Full root ∧
      (leaves root).Perm entries := by
  obtain ⟨root, st, hb, hg, hcodes, _, hf, hp, _⟩ := generate_built entries tempCode hne hlen
  refine ⟨root, hb, ?_, hf, hp⟩
  simp [buildTreeAndCodes, hb, hg, hcodes]

theorem flatMap_leaves_length (head : List HuffmanNode) (h : ∀ t ∈ head, t.isLeaf = true) :
    (head.flatMap leaves).length = head.length := by
  induction head with
  | nil => rfl
  | cons t rest ih =>
    have h1 := (full_of_isLeaf (h t (List.mem_cons_self _ _))).2
    have h2 := ih (fun x hx => h x (List.mem_cons_of_mem _ hx))
    simp only [List.flatMap_cons, List.length_append, List.length_cons, h1, h2]
    omega

/-! ## The decoder's position in the tree -/

/-- From an inner node of a strict tree whose root is not a leaf, on a string of bits every
iteration of the decoding loop is run, and each starts at a node with two children. -/
theorem decodeStates_total {root : HuffmanNode} (hroot : Full root)
    (hrl : root.isLeaf = false) :
    ∀ (bits : List Char) (current : HuffmanNode),
      Full current → current.isLeaf = false → (∀ c ∈ bits, c = '0' ∨ c = '1') →
      (decodeStates root current bits).length = bits.length ∧
      ∀ x ∈ decodeStates root current bits, Full x ∧ x.isLeaf = false := by
  intro bits
  induction bits with
  | nil =>
    intro current _ _ _
    simp [decodeStates]
  | cons b rest ih =>
    intro current hcur hcl hall
    have hb : b = '0' ∨ b = '1' := hall b (List.mem_cons_self _ _)
    have hrest : ∀ c ∈ rest, c = '0' ∨ c = '1' := fun c hc => hall c (List.mem_cons_of_mem _ hc)
    rcases full_cases hcur with ⟨d, w, rfl⟩ | ⟨d, w, l, r, rfl, hl, hr, _⟩
    · simp [isLeaf, isNULL] at hcl
    · have hchild : Full (if b = '0' then l else r) := by
        split
        · exact hl
        · exact hr
      have hstep : ∃ next, Full next ∧ next.isLeaf = false ∧
          decodeStates root (node d w l r) (b :: rest)
            = node d w l r :: decodeStates root next rest := by
        rcases full_cases hchild with ⟨d2, w2, hc⟩ | ⟨d2, w2, l2, r2, hc, hl2, _, hleaf⟩
        · refine ⟨root, hroot, hrl, ?_⟩
          simp only [decodeStates, hb, if_true, hc, isNULL, Bool.and_self]
        · refine ⟨node d2 w2 l2 r2, hc ▸ hchild, hc ▸ hleaf, ?_⟩
          simp only [decodeStates, hb, if_true, hc, hl2.ne_NULL, Bool.false_and]
          simp
      obtain ⟨next, hn1, hn2, heq⟩ := hstep
      obtain ⟨ih1, ih2⟩ := ih next hn1 hn2 hrest
      rw [heq]
      refine ⟨by simp [ih1], ?_⟩
      intro x hx
      rcases List.mem_cons.mp hx with rfl | hx
      · exact ⟨hcur, hcl⟩
      · exact ih2 x hx

theorem children_of_inner {x : HuffmanNode} (h : Full x) (hleaf : x.isLeaf = false) :
    x ≠ NULL ∧ x.left ≠ NULL ∧ x.right ≠ NULL := by
  rcases full_cases h with ⟨d, w, rfl⟩ | ⟨d, w, l, r, rfl, hl, hr, _⟩
  · simp [isLeaf, isNULL] at hleaf
  · refine ⟨by simp, ?_, ?_⟩
    · intro hn
      simp only [left] at hn
      rw [hn] at hl
      exact absurd hl (by simp [Full])
    · intro hn
      simp only [right] at hn
      rw [hn] at hr
      exact absurd hr (by simp [Full])

/-! ## Weights and code lengths -/

/-- The built tree costs at most any assignment of leaf depths to the input weights. -/
theorem built_tree_le_pairs (entries : List (Char × Int)) (hne : entries ≠ [])
    (root : HuffmanNode) (hb : buildHuffmanTree (buildList entries) = some root)
    (ps : List (Int × Nat)) (hpw : (ps.map Prod.fst).Perm (entries.map Prod.snd))
    (hpd : IsDepths (ps.map Prod.snd)) :
    weightedPathLength root 0 ≤ pairCost ps := by
  have hlist := buildList_perm entries
  have hne2 : buildList entries ≠ [] := by
    intro h
    have := buildList_length entries
    rw [h] at this
    exact hne (List.length_eq_zero.mp this.symm)
  have htrees : ∀ t ∈ buildList entries, Full t ∧ t.weight = weightSum t := by
    intro t ht
    obtain ⟨e, _, rfl⟩ := List.mem_map.mp (hlist.mem_iff.mp ht)
    exact ⟨full_createNode _ _, by simp [createNode, weight, weightSum, leaves, isNULL]⟩
  have hweights : (ps.map Prod.fst).Perm ((buildList entries).map weight) := by
    refine hpw.trans ?_
    have := (hlist.map weight).symm
    simpa [Function.comp_def, createNode, weight] using this
  obtain ⟨root2, hb2, hcost⟩ := buildHuffmanTree_cost (buildList entries) hne2
    (buildList_sorted entries) htrees ps hweights hpd
  rw [hb] at hb2
  obtain rfl := Option.some.inj hb2
  rw [forestCost_perm hlist, forestCost_createNode, zero_add] at hcost
  exact hcost

/-- In the built tree a leaf of greater weight is not deeper than a leaf of smaller weight:
exchanging their depths would lower the weighted path length. -/
theorem no_inversion (entries : List (Char × Int)) (hne : entries ≠ [])
    (root : HuffmanNode) (hb : buildHuffmanTree (buildList entries) = some root)
    (hf : Full root) (hp : (leaves root).Perm entries)
    (p q : Int × Nat) (rest : List (Int × Nat))
    (hperm : (depthPairs root 0).Perm (p :: q :: rest)) (hw : q.1 < p.1) : p.2 ≤ q.2 := by
  by_contra hlt
  have hd : q.2 < p.2 := not_le.mp hlt
  have hcost : weightedPathLength root 0 = pairCost (p :: q :: rest) := by
    rw [weightedPathLength_eq_pairCost hf, pairCost_perm hperm]
  have hle := built_tree_le_pairs entries hne root hb ((p.1, q.2) :: (q.1, p.2) :: rest)
    (by
      have h1 := (hperm.map Prod.fst).symm
      simp only [List.map_cons] at h1 ⊢
      refine h1.trans ?_
      rw [depthPairs_fst hf]
      exact hp.map Prod.snd)
    ⟨root, hf, by
      have h1 := (hperm.map Prod.snd).symm
      simp only [List.map_cons] at h1 ⊢
      exact (List.Perm.swap _ _ _).trans h1⟩
  rw [hcost] at hle
  simp only [pairCost_cons] at hle
  have h1 : (0 : Int) < p.1 - q.1 := sub_pos.mpr hw
  have h2 : (0 : Int) < (p.2 : Int) - (q.2 : Int) := by
    have : (q.2 : Int) < (p.2 : Int) := by exact_mod_cast hd
    linarith
  nlinarith [mul_pos h1 h2]

/-- Two distinct positions of a list can be brought to the front. -/
theorem two_positions (l : List (Int × Nat)) (i j : Nat) (hi : i < l.length)
    (hj : j < l.length) (hij : i ≠ j) : ∃ rest, l.Perm (l[i] :: l[j] :: rest) := by
  have hsplit : l = l.take i ++ l[i] :: l.drop (i + 1) := by
    rw [← List.drop_eq_getElem_cons hi, List.take_append_drop]
  have hperm : l.Perm (l[i] :: (l.take i ++ l.drop (i + 1))) := by
    nth_rewrite 1 [hsplit]
    exact List.perm_middle
  have hmem : l[j] ∈ l.take i ++ l.drop (i + 1) := by
    rcases Nat.lt_or_gt_of_ne hij with hlt | hgt
    · -- `i < j`: the element lies after position `i`
      apply List.mem_append_right
      have hk : j - (i + 1) < (l.drop (i + 1)).length := by
        rw [List.length_drop]; omega
      have : (l.drop (i + 1))[j - (i + 1)] = l[j] := by
        rw [List.getElem_drop]
        congr 1
        omega
      rw [← this]
      exact List.getElem_mem _
    · -- `j < i`: the element lies before position `i`
      apply List.mem_append_left
      have hk : j < (l.take i).length := by
        rw [List.length_take]; omega
      have : (l.take i)[j] = l[j] := by
        rw [List.getElem_take]
      rw [← this]
      exact List.getElem_mem _
  obtain ⟨rest, hrest⟩ := exists_perm_cons hmem
  exact ⟨rest, hperm.trans (List.Perm.cons _ hrest)⟩

/-- The (weight, depth) pairs of a strict tree, read off its leaves and its table. -/
theorem depthPairs_zip {t : HuffmanNode} (h : Full t) (path : List Char) :
    depthPairs t path.length
      = (List.zip (leaves t) (codesOf t path)).map (fun p => (p.1.2, p.2.code.length)) := by
  revert path
  refine Full.induction
    (P := fun t => ∀ path, depthPairs t path.length
      = (List.zip (leaves t) (codesOf t path)).map (fun p => (p.1.2, p.2.code.length)))
    ?_ ?_ t h
  · intro d w path
    simp [leaves, codesOf, depthPairs, isNULL]
  · intro d w l r hl hr ihl ihr path
    rw [depthPairs_inner d w hl, leaves_inner d w hl, codesOf_inner d w hl,
      List.zip_append (codesOf_length hl _).symm, List.map_append, ← ihl, ← ihr]
    simp

/-! ## Weight sums in 32-bit `int` -/

/-- With the weight sums taken as exact integers: for an alphabet of at least two entries with
positive weights, the leaves of the built tree are the entries and the table entries are
written for them in the same order; an entry of greater weight has a code no longer than an
entry of smaller weight, for the codes at their table positions and, when the symbols are
pairwise distinct, for the codes looked up by symbol. -/
theorem heavier_not_longer (entries : List (Char × Int)) (tempCode : List Char)
    (hsize : 2 ≤ entries.length) (_hpos : ∀ e ∈ entries, 0 < e.2)
    (htemp : tempCode.length = entries.length + 1) :
    ∃ root table, buildTreeAndCodes entries tempCode = some (root, table) ∧
      (leaves root).Perm entries ∧
      table.map HuffmanCode.data = (leaves root).map Prod.fst ∧
      (∀ (i j : Nat) (hi : i < table.length) (hj : j < table.length)
          (hi2 : i < (leaves root).length) (hj2 : j < (leaves root).length),
        (leaves root)[j].2 < (leaves root)[i].2 →
          table[i].code.length ≤ table[j].code.length) ∧
      ((entries.map Prod.fst).Nodup → ∀ a ∈ entries, ∀ b ∈ entries, b.2 < a.2 →
        ((findCode table a.1).getD []).length ≤ ((findCode table b.1).getD []).length) := by
  have hne : entries ≠ [] := by
    intro h
    rw [h] at hsize
    simp at hsize
  obtain ⟨root, hb, hs, hf, hp⟩ := setup_built entries tempCode hne htemp
  have hdata := codesOf_data hf []
  have hlen : (codesOf root []).length = (leaves root).length := codesOf_length hf []
  have hpairs := depthPairs_zip hf []
  simp only [List.length_nil] at hpairs
  have hplen : (depthPairs root 0).length = (leaves root).length := depthPairs_length hf 0
  have hget : ∀ (i : Nat) (hi : i < (codesOf root []).length) (hi2 : i < (leaves root).length)
      (hi3 : i < (depthPairs root 0).length),
      (depthPairs root 0)[i] = ((leaves root)[i].2, (codesOf root [])[i].code.length) := by
    intro i hi hi2 hi3
    simp [hpairs]
  have hpos : ∀ (i j : Nat) (hi : i < (codesOf root []).length)
      (hj : j < (codesOf root []).length)
      (hi2 : i < (leaves root).length) (hj2 : j < (leaves root).length),
      (leaves root)[j].2 < (leaves root)[i].2 →
        (codesOf root [])[i].code.length ≤ (codesOf root [])[j].code.length := by
    intro i j hi hj hi2 hj2 hw
    have hij : i ≠ j := by
      intro h
      subst h
      exact absurd hw (lt_irrefl _)
    obtain ⟨rest, hperm⟩ := two_positions (depthPairs root 0) i j (by omega) (by omega) hij
    rw [hget i hi hi2 (by omega), hget j hj hj2 (by omega)] at hperm
    exact no_inversion entries hne root hb hf hp _ _ rest hperm hw
  refine ⟨root, codesOf root [], hs, hp, hdata, hpos, ?_⟩
  intro hnd a ha b hb2 hw
  have hnd2 : ((codesOf root []).map HuffmanCode.data).Nodup := by
    rw [hdata]
    exact ((hp.map Prod.fst).nodup_iff).mpr hnd
  have hfind : ∀ e ∈ entries, ∃ (i : Nat) (hi : i < (codesOf root []).length)
      (hi2 : i < (leaves root).length), (leaves root)[i] = e ∧
      findCode (codesOf root []) e.1 = some (codesOf root [])[i].code := by
    intro e he
    obtain ⟨i, hi2, hie⟩ := List.getElem_of_mem (hp.mem_iff.mpr he)
    have hi : i < (codesOf root []).length := by omega
    refine ⟨i, hi, hi2, hie, ?_⟩
    have hd : (codesOf root [])[i].data = e.1 := by
      have h1 : ((codesOf root []).map HuffmanCode.data)[i]?
          = ((leaves root).map Prod.fst)[i]? := by
        rw [hdata]
      simpa [List.getElem?_map, List.getElem?_eq_getElem hi, List.getElem?_eq_getElem hi2,
        hie] using h1
    rw [← hd]
    exact findCode_nodup _ hnd2 _ (List.getElem_mem _)
  obtain ⟨i, hi, hi2, hia, hfa⟩ := hfind a ha
  obtain ⟨j, hj, hj2, hjb, hfb⟩ := hfind b hb2
  rw [hfa, hfb]
  simp only [Option.getD_some]
  exact hpos i j hi hj hi2 hj2 (by rw [hia, hjb]; exact hw)

/-- Instance of `heavier_not_longer` on the alphabet a:5, b:9, c:12, with exact sums: the code
looked up for `c` is no longer than the code looked up for `a`. -/
theorem heavier_not_longer_witness :
    ∃ root table,
      buildTreeAndCodes [('a', 5), ('b', 9), ('c', 12)] ['x', 'x', 'x', 'x'] = some (root, table) ∧
      ((findCode table 'c').getD []).length ≤ ((findCode table 'a').getD []).length := by
  obtain ⟨root, table, hb, _, _, _, h⟩ :=
    heavier_not_longer [('a', 5), ('b', 9), ('c', 12)] ['x', 'x', 'x', 'x'] (by decide)
      (by decide) (by decide)
  exact ⟨root, table, hb, h (by decide) ('c', 12) (by decide) ('a', 5) (by decide) (by decide)⟩

theorem wrapInt_eq (x : Int) (hlo : -2147483648 ≤ x) (hhi : x ≤ 2147483647) :
    wrapInt x = x := by
  unfold wrapInt
  rw [Int.emod_eq_of_lt (by omega) (by omega)]
  omega

/-- On a work list of positive weights whose sum fits in an `int`, no sum of line 52
overflows, and the loop with 32-bit sums does what the loop with exact sums does. -/
theorem buildLoop32_eq :
    ∀ (fuel : Nat) (head : List HuffmanNode), (∀ t ∈ head, 0 < t.weight) →
      (head.map weight).sum ≤ 2147483647 → buildLoop32 fuel head = buildLoop fuel head := by
  intro fuel
  induction fuel with
  | zero =>
    intro head _ _
    match head with
    | [] => rfl
    | [_] => rfl
    | _ :: _ :: _ => rfl
  | succ fuel ih =>
    intro head hpos hsum
    match head, hpos, hsum with
    | [], _, _ => rfl
    | [_], _, _ => rfl
    | min1 :: min2 :: rest, hpos, hsum =>
      have h1 : 0 < min1.weight := hpos min1 (by simp)
      have h2 : 0 < min2.weight := hpos min2 (by simp)
      have hrest : 0 ≤ (rest.map weight).sum := by
        apply List.sum_nonneg
        intro x hx
        obtain ⟨t, ht, rfl⟩ := List.mem_map.mp hx
        exact le_of_lt (hpos t (by simp [ht]))
      have hsum2 : min1.weight + (min2.weight + (rest.map weight).sum) ≤ 2147483647 := by
        simpa only [List.map_cons, List.sum_cons] using hsum
      have hw : wrapInt (min1.weight + min2.weight) = min1.weight + min2.weight :=
        wrapInt_eq _ (by omega) (by omega)
      have hnew : (node NUL (min1.weight + min2.weight) min1 min2).weight
          = min1.weight + min2.weight := rfl
      have hperm := insertNode_perm rest (node NUL (min1.weight + min2.weight) min1 min2)
      have hstep : buildLoop32 (fuel + 1) (min1 :: min2 :: rest)
          = buildLoop32 fuel
              (insertNode rest (node NUL (min1.weight + min2.weight) min1 min2)) := by
        simp only [buildLoop32, hw]
      rw [hstep]
      simp only [buildLoop]
      apply ih
      · intro t ht
        rcases List.mem_cons.mp (hperm.mem_iff.mp ht) with rfl | ht
        · rw [hnew]
          omega
        · exact hpos t (by simp [ht])
      · rw [(hperm.map weight).sum_eq, List.map_cons, List.sum_cons, hnew]
        omega

/-- For positive input weights whose sum fits in an `int`, the set-up code with 32-bit sums
gives the tree and table of the set-up code with exact sums. -/
theorem buildTreeAndCodes32_eq (entries : List (Char × Int)) (tempCode : List Char)
    (hpos : ∀ e ∈ entries, 0 < e.2) (hrange : (entries.map Prod.snd).sum ≤ 2147483647) :
    buildTreeAndCodes32 entries tempCode = buildTreeAndCodes entries tempCode := by
  have hlist := buildList_perm entries
  have hb : buildHuffmanTree32 (buildList entries) = buildHuffmanTree (buildList entries) := by
    apply buildLoop32_eq
    · intro t ht
      obtain ⟨e, he, rfl⟩ := List.mem_map.mp (hlist.mem_iff.mp ht)
      exact hpos e he
    · rw [(hlist.map weight).sum_eq, List.map_map]
      exact hrange
  simp only [buildTreeAndCodes32, buildTreeAndCodes, hb]

/-! ## Properties of the codec -/

/-- Claim C1 (round trip).  For an alphabet of at least two entries with pairwise distinct
symbols, the set-up code of `main` yields a tree and a table such that every non-empty symbol
sequence over the alphabet is decoded back from its encoding, with no warning.  (The proof
uses neither the distinctness of the symbols nor the non-emptiness of the sequence.) -/
theorem round_trip (entries : List (Char × Int)) (tempCode S : List Char)
    (hsize : 2 ≤ entries.length) (_hdistinct : (entries.map Prod.fst).Nodup)
    (htemp : tempCode.length = entries.length + 1)
    (_hS : S ≠ []) (hmem : ∀ s ∈ S, s ∈ entries.map Prod.fst) :
    ∃ root table, buildTreeAndCodes entries tempCode = some (root, table) ∧
      decodeString root (encodeString table S) = DecodeResult.returns S false := by
  have hne : entries ≠ [] := by
    intro h
    rw [h] at hsize
    simp at hsize
  obtain ⟨root, hb, hf, hp⟩ := buildTreeAndCodes_spec entries tempCode hne htemp
  refine ⟨root, codesOf root [], hb, ?_⟩
  apply decode_encode hf (isLeaf_of_two_leaves hf (by rw [hp.length_eq]; exact hsize))
  intro s hs
  exact ((hp.map Prod.fst).mem_iff).mpr (hmem s hs)

/-- Instance of `round_trip` on the alphabet a:5, b:9 and the sequence "ab". -/
theorem round_trip_witness :
    ∃ root table, buildTreeAndCodes [('a', 5), ('b', 9)] ['x', 'y', 'z'] = some (root, table) ∧
      decodeString root (encodeString table ['a', 'b'])
        = DecodeResult.returns ['a', 'b'] false :=
  round_trip [('a', 5), ('b', 9)] ['x', 'y', 'z'] ['a', 'b'] (by decide) (by decide)
    (by decide) (by decide) (by decide)

/-- Claim C2 (pack/unpack inverse).  For every string over '0' and '1', of any length,
unpacking the bytes and byte count returned by `binaryStringToBytes` with the length of the
string as bit count gives back the string. -/
theorem pack_unpack (b : List Char) (hbits : ∀ c ∈ b, c = '0' ∨ c = '1') :
    bytesToBinaryString (binaryStringToBytes b).1 (binaryStringToBytes b).2 b.length
      = some b := by
  obtain ⟨h1, h2, _, h4⟩ := binaryStringToBytes_spec b
  rw [bytesToBinaryString_spec _ _ _ (by rw [h1, h2]) (by rw [h1]; omega)]
  congr 1
  apply List.ext_getElem (by simp)
  intro k hk1 hk2
  have hk : k < b.length := by simpa using hk1
  simp only [List.getElem_map, List.getElem_range, bitChar, h4 k, List.getElem?_eq_getElem hk,
    Option.some.injEq]
  rcases hbits b[k] (List.getElem_mem _) with h | h <;> rw [h] <;> decide

/-- Instance of `pack_unpack` on a string of 15 bits. -/
theorem pack_unpack_witness :
    bytesToBinaryString (binaryStringToBytes "110011001101111".toList).1
      (binaryStringToBytes "110011001101111".toList).2 "110011001101111".toList.length
      = some "110011001101111".toList :=
  pack_unpack "110011001101111".toList (by decide)

/-- Claim C3 (prefix property).  For an alphabet of at least two entries, in the generated
table the codes of two entries at distinct positions are distinct and neither is an initial
part of the other. -/
theorem codes_prefix_free (entries : List (Char × Int)) (tempCode : List Char)
    (hsize : 2 ≤ entries.length) (htemp : tempCode.length = entries.length + 1) :
    ∃ root table, buildTreeAndCodes entries tempCode = some (root, table) ∧
      ∀ (i j : Nat) (hi : i < table.length) (hj : j < table.length), i ≠ j →
        ¬ table[i].code <+: table[j].code ∧ table[i].code ≠ table[j].code := by
  have hne : entries ≠ [] := by
    intro h
    rw [h] at hsize
    simp at hsize
  obtain ⟨root, hb, hf, _⟩ := buildTreeAndCodes_spec entries tempCode hne htemp
  refine ⟨root, codesOf root [], hb, ?_⟩
  have hpw := codesOf_pairwise hf []
  rw [List.pairwise_iff_getElem] at hpw
  intro i j hi hj hij
  have key : ¬ (codesOf root [])[i].code <+: (codesOf root [])[j].code := by
    rcases Nat.lt_or_gt_of_ne hij with hlt | hgt
    · exact (hpw i j hi hj hlt).1
    · exact (hpw j i hj hi hgt).2
  exact ⟨key, fun heq => key (heq ▸ List.prefix_refl _)⟩

/-- Instance of `codes_prefix_free` on the alphabet a:5, b:9, c:12. -/
theorem codes_prefix_free_witness :
    ∃ root table,
      buildTreeAndCodes [('a', 5), ('b', 9), ('c', 12)] ['x', 'x', 'x', 'x'] = some (root, table) ∧
      ∀ (i j : Nat) (hi : i < table.length) (hj : j < table.length), i ≠ j →
        ¬ table[i].code <+: table[j].code ∧ table[i].code ≠ table[j].code :=
  codes_prefix_free [('a', 5), ('b', 9), ('c', 12)] ['x', 'x', 'x', 'x'] (by decide) (by decide)

/-- Claim C4 (optimality).  For a non-empty list of entries with weights at least 1, weights
being exact integers, the tree built by sorted insertion and `buildHuffmanTree` is a strict
binary tree whose leaves are the entries, and its weighted path length is at most that of every
strict binary tree whose leaves carry the same multiset of weights. -/
theorem optimality (entries : List (Char × Int)) (hne : entries ≠ [])
    (_hpos : ∀ e ∈ entries, 1 ≤ e.2) :
    ∃ root, buildHuffmanTree (buildList entries) = some root ∧ Full root ∧
      (leaves root).Perm entries ∧
      ∀ u, Full u → ((leaves u).map Prod.snd).Perm (entries.map Prod.snd) →
        weightedPathLength root 0 ≤ weightedPathLength u 0 := by
  obtain ⟨root, hb, hf, hp⟩ := build_entries entries hne
  refine ⟨root, hb, hf, hp, ?_⟩
  intro u hu hperm
  have hlist := buildList_perm entries
  have hne2 : buildList entries ≠ [] := by
    intro h
    have := buildList_length entries
    rw [h] at this
    exact hne (List.length_eq_zero.mp this.symm)
  have htrees : ∀ t ∈ buildList entries, Full t ∧ t.weight = weightSum t := by
    intro t ht
    obtain ⟨e, _, rfl⟩ := List.mem_map.mp (hlist.mem_iff.mp ht)
    exact ⟨full_createNode _ _, by simp [createNode, weight, weightSum, leaves, isNULL]⟩
  have hweights : ((depthPairs u 0).map Prod.fst).Perm ((buildList entries).map weight) := by
    rw [depthPairs_fst hu]
    refine hperm.trans ?_
    have := (hlist.map weight).symm
    simpa [Function.comp_def, createNode, weight] using this
  obtain ⟨root2, hb2, hcost⟩ := buildHuffmanTree_cost (buildList entries) hne2
    (buildList_sorted entries) htrees (depthPairs u 0) hweights ⟨u, hu, List.Perm.refl _⟩
  rw [hb] at hb2
  obtain rfl := Option.some.inj hb2
  rw [forestCost_perm hlist, forestCost_createNode, zero_add,
    ← weightedPathLength_eq_pairCost hu] at hcost
  exact hcost

/-- Instance of `optimality` on the entries a:5, b:9, c:12, compared with the strict tree
that puts `c` deepest. -/
theorem optimality_witness :
    ∃ root, buildHuffmanTree (buildList [('a', 5), ('b', 9), ('c', 12)]) = some root ∧
      weightedPathLength root 0 ≤ weightedPathLength
        (node NUL 26 (node 'a' 5 NULL NULL)
          (node NUL 21 (node 'b' 9 NULL NULL) (node 'c' 12 NULL NULL))) 0 := by
  obtain ⟨root, hb, _, _, h⟩ := optimality [('a', 5), ('b', 9), ('c', 12)] (by decide) (by decide)
  refine ⟨root, hb, h _ ?_ ?_⟩
  · simp [Full]
  · decide

/-- Claim C5 (degenerate alphabet), evaluated on the code.  For the one-symbol alphabet `c`
the tree is the single leaf and the code of `c` is empty, so every sequence `S` is encoded as
the empty bit string and decoded as the empty string: a non-empty `S` is not reproduced.  And
on any input starting with a bit the decoder steps to the null child of the leaf root and reads
through it. -/
theorem single_symbol_behaviour (c : Char) (w : Int) (x y : Char) (S bits : List Char)
    (bit : Char) :
    buildTreeAndCodes [(c, w)] [x, y] = some (createNode c w, [⟨c, []⟩]) ∧
    encodeString [⟨c, []⟩] S = some [] ∧
    decodeString (createNode c w) (encodeString [⟨c, []⟩] S) = DecodeResult.returns [] false ∧
    (S ≠ [] → ∀ incomplete,
      decodeString (createNode c w) (encodeString [⟨c, []⟩] S)
        ≠ DecodeResult.returns S incomplete) ∧
    (bit = '0' ∨ bit = '1' →
      decodeString (createNode c w) (some (bit :: bits)) = DecodeResult.invalidAccess) := by
  have henc : encodeString [⟨c, []⟩] S = some [] := by
    rw [encodeString_eq]
    have : ∀ l ∈ codeList [⟨c, []⟩] S, l = [] := by
      intro l hl
      simp only [codeList, List.mem_filterMap] at hl
      obtain ⟨s, _, hs⟩ := hl
      simp only [findCode] at hs
      split at hs
      · exact (Option.some.inj hs).symm
      · exact absurd hs (by simp)
    simp only [Option.some.injEq, List.flatten_eq_nil_iff]
    exact this
  have hdec : decodeString (createNode c w) (encodeString [⟨c, []⟩] S)
      = DecodeResult.returns [] false := by
    rw [henc]
    simp [decodeString, createNode, decodeLoop]
  refine ⟨?_, henc, hdec, ?_, ?_⟩
  · simp [buildTreeAndCodes, buildHuffmanTree, buildList, insertNode, buildLoop, createNode,
      generateHuffmanCodes, isNULL, cstring, NUL]
  · intro hS incomplete heq
    rw [hdec] at heq
    injection heq with h1 _
    exact hS h1.symm
  · intro hbit
    rcases hbit with rfl | rfl <;> simp [decodeString, createNode, decodeLoop]

/-- Claim C6 (incomplete input).  For an alphabet of at least two entries, decoding the
encoding of a sequence over the alphabet followed by a non-empty proper initial part of a code
of the table returns exactly the sequence, in the incomplete state. -/
theorem incomplete_input (entries : List (Char × Int)) (tempCode : List Char)
    (hsize : 2 ≤ entries.length) (htemp : tempCode.length = entries.length + 1) :
    ∃ root table, buildTreeAndCodes entries tempCode = some (root, table) ∧
      ∀ S p : List Char, (∀ s ∈ S, s ∈ entries.map Prod.fst) → p ≠ [] →
        (∃ e ∈ table, p <+: e.code ∧ p ≠ e.code) →
        ∃ bits, encodeString table S = some bits ∧
          decodeString root (some (bits ++ p)) = DecodeResult.returns S true := by
  have hne : entries ≠ [] := by
    intro h
    rw [h] at hsize
    simp at hsize
  obtain ⟨root, hb, hf, hp⟩ := buildTreeAndCodes_spec entries tempCode hne htemp
  have hleaf := isLeaf_of_two_leaves hf (by rw [hp.length_eq]; exact hsize)
  refine ⟨root, codesOf root [], hb, ?_⟩
  intro S p hS hpne ⟨e, he, ⟨q, hq⟩, hneq⟩
  refine ⟨_, encodeString_eq _ S, ?_⟩
  have hS2 : ∀ s ∈ S, s ∈ (codesOf root []).map HuffmanCode.data := by
    intro s hs
    rw [codesOf_data hf]
    exact ((hp.map Prod.fst).mem_iff).mpr (hS s hs)
  rw [decodeString_full hf, decodeLoop_encoded hf hleaf S hS2 p [], List.nil_append]
  have hqne : q ≠ [] := by
    intro h
    rw [h, List.append_nil] at hq
    exact hneq hq
  obtain ⟨sub, _, hlt, hdec⟩ := decodeLoop_partial hf root e p q S he hq.symm hqne
  rw [hdec]
  have : sub ≠ root := ne_of_size_lt (hlt hpne)
  simp [this]

/-- Instance of `incomplete_input` on the alphabet a:5, b:9, c:12 (codes c:0, a:10, b:11):
the encoding of "ca" followed by the bit 1 decodes to "ca", incomplete. -/
theorem incomplete_input_witness :
    ∃ root table,
      buildTreeAndCodes [('a', 5), ('b', 9), ('c', 12)] ['x', 'x', 'x', 'x'] = some (root, table) ∧
      ∃ bits, encodeString table ['c', 'a'] = some bits ∧
        decodeString root (some (bits ++ ['1'])) = DecodeResult.returns ['c', 'a'] true := by
  obtain ⟨root, table, hb, h⟩ :=
    incomplete_input [('a', 5), ('b', 9), ('c', 12)] ['x', 'x', 'x', 'x'] (by decide) (by decide)
  have hval : buildTreeAndCodes [('a', 5), ('b', 9), ('c', 12)] ['x', 'x', 'x', 'x']
      = some (node NUL 26 (node 'c' 12 NULL NULL)
          (node NUL 14 (node 'a' 5 NULL NULL) (node 'b' 9 NULL NULL)),
        [⟨'c', ['0']⟩, ⟨'a', ['1', '0']⟩, ⟨'b', ['1', '1']⟩]) := by decide
  rw [hval] at hb
  obtain ⟨rfl, rfl⟩ := Prod.mk.inj (Option.some.inj hb)
  refine ⟨_, _, hval, h ['c', 'a'] ['1'] (by decide) (by decide) ?_⟩
  exact ⟨⟨'a', ['1', '0']⟩, by decide, ⟨['0'], rfl⟩, by decide⟩

/-- Claim C7 (concrete scenario).  For the entries a:5, b:9, c:12, d:13, e:16, f:45 inserted
in that order, the table gives `f` a code of one bit and `a` a code of the greatest length in
the table; "aabe" is encoded, and decoded back; and packing the encoded bit string and
unpacking it returns the same bit string. -/
theorem concrete_scenario (tempCode : List Char) (htemp : tempCode.length = 7) :
    ∃ root table,
      buildTreeAndCodes [('a', 5), ('b', 9), ('c', 12), ('d', 13), ('e', 16), ('f', 45)] tempCode
        = some (root, table) ∧
      (∃ codeF, findCode table 'f' = some codeF ∧ codeF.length = 1) ∧
      (∃ codeA, findCode table 'a' = some codeA ∧ ∀ e ∈ table, e.code.length ≤ codeA.length) ∧
      ∃ bits, encodeString table ['a', 'a', 'b', 'e'] = some bits ∧
        decodeString root (some bits) = DecodeResult.returns ['a', 'a', 'b', 'e'] false ∧
        bytesToBinaryString (binaryStringToBytes bits).1 (binaryStringToBytes bits).2 bits.length
          = some bits := by
  obtain ⟨root, hb, _, _⟩ := buildTreeAndCodes_spec
    [('a', 5), ('b', 9), ('c', 12), ('d', 13), ('e', 16), ('f', 45)] tempCode (by simp)
    (by simpa using htemp)
  have hroot : buildHuffmanTree
      (buildList [('a', 5), ('b', 9), ('c', 12), ('d', 13), ('e', 16), ('f', 45)])
      = some (node NUL 100 (node 'f' 45 NULL NULL)
          (node NUL 55
            (node NUL 25 (node 'c' 12 NULL NULL) (node 'd' 13 NULL NULL))
            (node NUL 30
              (node NUL 14 (node 'a' 5 NULL NULL) (node 'b' 9 NULL NULL))
              (node 'e' 16 NULL NULL)))) := by decide
  have hroot2 : root = node NUL 100 (node 'f' 45 NULL NULL)
          (node NUL 55
            (node NUL 25 (node 'c' 12 NULL NULL) (node 'd' 13 NULL NULL))
            (node NUL 30
              (node NUL 14 (node 'a' 5 NULL NULL) (node 'b' 9 NULL NULL))
              (node 'e' 16 NULL NULL))) := by
    simp only [buildTreeAndCodes, hroot] at hb
    split at hb
    · exact absurd hb (by simp)
    · exact (Prod.mk.inj (Option.some.inj hb)).1.symm
  subst hroot2
  refine ⟨_, _, hb, ⟨['0'], by decide, by decide⟩, ⟨['1', '1', '0', '0'], by decide, by decide⟩,
    "110011001101111".toList, by decide, by decide, by decide⟩

/-- Instance of `concrete_scenario` for a scratch buffer of seven characters `x`. -/
theorem concrete_scenario_witness :
    ∃ root table,
      buildTreeAndCodes [('a', 5), ('b', 9), ('c', 12), ('d', 13), ('e', 16), ('f', 45)]
        ['x', 'x', 'x', 'x', 'x', 'x', 'x'] = some (root, table) ∧
      (∃ codeF, findCode table 'f' = some codeF ∧ codeF.length = 1) ∧
      (∃ codeA, findCode table 'a' = some codeA ∧ ∀ e ∈ table, e.code.length ≤ codeA.length) ∧
      ∃ bits, encodeString table ['a', 'a', 'b', 'e'] = some bits ∧
        decodeString root (some bits) = DecodeResult.returns ['a', 'a', 'b', 'e'] false ∧
        bytesToBinaryString (binaryStringToBytes bits).1 (binaryStringToBytes bits).2 bits.length
          = some bits :=
  concrete_scenario ['x', 'x', 'x', 'x', 'x', 'x', 'x'] (by decide)

/-- Claim C8 (encoder output).  When every symbol of `S` has a table entry, `encodeString`
returns the concatenation, in input order, of the codes `findCode` gives; its length is the sum
of the code lengths, and for every split `S = S1 ++ S2` it is the encoding of `S1` followed by
the encoding of `S2`. -/
theorem encode_concatenates (codes : List HuffmanCode) (S : List Char)
    (hentry : ∀ s ∈ S, ∃ e ∈ codes, e.data = s) :
    ∃ out, encodeString codes S = some out ∧
      out = (S.map (fun s => (findCode codes s).getD [])).flatten ∧
      out.length = (S.map (fun s => ((findCode codes s).getD []).length)).sum ∧
      ∀ S1 S2, S = S1 ++ S2 →
        ∃ out1 out2, encodeString codes S1 = some out1 ∧ encodeString codes S2 = some out2 ∧
          out = out1 ++ out2 := by
  have hmem : ∀ s ∈ S, s ∈ codes.map HuffmanCode.data := by
    intro s hs
    obtain ⟨e, he, rfl⟩ := hentry s hs
    exact List.mem_map_of_mem _ he
  refine ⟨_, encodeString_eq codes S, codeList_all_found codes S hmem ▸ rfl, ?_, ?_⟩
  · rw [codeList_all_found codes S hmem, List.length_flatten, List.map_map]
    rfl
  · intro S1 S2 hsplit
    refine ⟨_, _, encodeString_eq codes S1, encodeString_eq codes S2, ?_⟩
    rw [hsplit]
    simp [codeList, List.filterMap_append]

/-- Instance of `encode_concatenates` on the table a:0, b:10 and the sequence "aba". -/
theorem encode_concatenates_witness :
    ∃ out, encodeString [⟨'a', ['0']⟩, ⟨'b', ['1', '0']⟩] ['a', 'b', 'a'] = some out ∧
      out = (['a', 'b', 'a'].map
        (fun s => (findCode [⟨'a', ['0']⟩, ⟨'b', ['1', '0']⟩] s).getD [])).flatten ∧
      out.length = (['a', 'b', 'a'].map
        (fun s => ((findCode [⟨'a', ['0']⟩, ⟨'b', ['1', '0']⟩] s).getD []).length)).sum ∧
      ∀ S1 S2, ['a', 'b', 'a'] = S1 ++ S2 →
        ∃ out1 out2, encodeString [⟨'a', ['0']⟩, ⟨'b', ['1', '0']⟩] S1 = some out1 ∧
          encodeString [⟨'a', ['0']⟩, ⟨'b', ['1', '0']⟩] S2 = some out2 ∧ out = out1 ++ out2 :=
  encode_concatenates [⟨'a', ['0']⟩, ⟨'b', ['1', '0']⟩] ['a', 'b', 'a'] (by decide)

/-- Claim C9, refuted as stated: with the table a:0 and the input "ab", the symbol `b` has no
entry, yet `encodeString` returns the bit string "0". -/
theorem unknown_symbol_not_reported :
    findCode [⟨'a', ['0']⟩] 'b' = none ∧
      encodeString [⟨'a', ['0']⟩] ['a', 'b'] = some ['0'] := by
  decide

/-- Claim C9, amended.  `encodeString` never fails: symbols without a table entry are skipped,
and the result is the concatenation, in input order, of the codes of the symbols that have
one. -/
theorem unknown_symbol_skipped (codes : List HuffmanCode) (S : List Char) :
    encodeString codes S = some (S.filterMap (findCode codes)).flatten ∧
      ∀ S1 S2 : List Char, ∀ s, findCode codes s = none →
        encodeString codes (S1 ++ s :: S2) = encodeString codes (S1 ++ S2) := by
  refine ⟨encodeString_eq codes S, ?_⟩
  intro S1 S2 s hs
  rw [encodeString_eq, encodeString_eq]
  simp [codeList, List.filterMap_append, List.filterMap_cons, hs]

/-- Claim C10 (pack layout).  For a string `b` over '0' and '1' of length `L`,
`binaryStringToBytes` returns `ceil(L / 8)` bytes (and that count); for `k < L`, bit
`7 - k % 8` of byte `k / 8` is set exactly when `b[k]` is '1'; and the bits of the last byte
at logical indices from `L` on are clear. -/
theorem pack_layout (b : List Char) (_hbits : ∀ c ∈ b, c = '0' ∨ c = '1') :
    (binaryStringToBytes b).1.length = (binaryStringToBytes b).2 ∧
    (binaryStringToBytes b).2 = (b.length + 7) / 8 ∧
    (b.length ≤ 8 * (binaryStringToBytes b).2 ∧ 8 * (binaryStringToBytes b).2 < b.length + 8) ∧
    (∀ x ∈ (binaryStringToBytes b).1, x < 256) ∧
    (∀ (k : Nat) (hk : k < b.length),
      (((binaryStringToBytes b).1.getD (k / 8) 0).testBit (7 - k % 8) = true ↔ b[k] = '1')) ∧
    (∀ k : Nat, b.length ≤ k → k < 8 * (binaryStringToBytes b).2 →
      ((binaryStringToBytes b).1.getD (k / 8) 0).testBit (7 - k % 8) = false) := by
  obtain ⟨h1, h2, h3, h4⟩ := binaryStringToBytes_spec b
  refine ⟨by rw [h1, h2], h1, by rw [h1]; omega, h3, ?_, ?_⟩
  · intro k hk
    have := h4 k
    simp only [logicalBit] at this
    rw [this, List.getElem?_eq_getElem hk]
    simp
  · intro k hk _
    have := h4 k
    simp only [logicalBit] at this
    rw [this, List.getElem?_eq_none hk]
    simp

/-- Instance of `pack_layout` on a string of 15 bits. -/
theorem pack_layout_witness :
    (binaryStringToBytes "110011001101111".toList).1 = [204, 222] ∧
    (binaryStringToBytes "110011001101111".toList).1.length
      = (binaryStringToBytes "110011001101111".toList).2 ∧
    (∀ k : Nat, "110011001101111".toList.length ≤ k →
      k < 8 * (binaryStringToBytes "110011001101111".toList).2 →
      ((binaryStringToBytes "110011001101111".toList).1.getD (k / 8) 0).testBit (7 - k % 8)
        = false) :=
  ⟨by decide, (pack_layout "110011001101111".toList (by decide)).1,
    (pack_layout "110011001101111".toList (by decide)).2.2.2.2.2⟩

/-- Claim C11 (tie-break determinism).  For two non-empty lists of entries with positive
weights that hold the same entries and the same weight at every position (so that they differ
only in the order of entries of equal weight), the trees and tables built from each have the
same total weighted code length: the same sum along the table of leaf weight times code length
and, when the symbols are pairwise distinct, the same sum over the input entries of weight
times the length of the code looked up for the symbol. -/
theorem tie_break (entries1 entries2 : List (Char × Int)) (tempCode1 tempCode2 : List Char)
    (hne1 : entries1 ≠ []) (hne2 : entries2 ≠ [])
    (_hpos1 : ∀ e ∈ entries1, 0 < e.2) (_hpos2 : ∀ e ∈ entries2, 0 < e.2)
    (hperm : entries1.Perm entries2)
    (_hweights : entries1.map Prod.snd = entries2.map Prod.snd)
    (htemp1 : tempCode1.length = entries1.length + 1)
    (htemp2 : tempCode2.length = entries2.length + 1) :
    ∃ root1 table1 root2 table2,
      buildTreeAndCodes entries1 tempCode1 = some (root1, table1) ∧
      buildTreeAndCodes entries2 tempCode2 = some (root2, table2) ∧
      weightedCodeLength root1 table1 = weightedCodeLength root2 table2 ∧
      ((entries1.map Prod.fst).Nodup →
        lookupCodeLength entries1 table1 = lookupCodeLength entries2 table2) := by
  obtain ⟨root1, hb1, hs1, hf1, hp1⟩ := setup_built entries1 tempCode1 hne1 htemp1
  obtain ⟨root2, hb2, hs2, hf2, hp2⟩ := setup_built entries2 tempCode2 hne2 htemp2
  have h12 : weightedPathLength root1 0 ≤ weightedPathLength root2 0 :=
    built_tree_minimal entries1 hne1 root1 hb1 root2 hf2
      (((hp2.trans hperm.symm).map Prod.snd))
  have h21 : weightedPathLength root2 0 ≤ weightedPathLength root1 0 :=
    built_tree_minimal entries2 hne2 root2 hb2 root1 hf1
      (((hp1.trans hperm).map Prod.snd))
  have heq : weightedCodeLength root1 (codesOf root1 [])
      = weightedCodeLength root2 (codesOf root2 []) := by
    rw [weightedCodeLength_eq hf1, weightedCodeLength_eq hf2]
    exact le_antisymm h12 h21
  refine ⟨root1, _, root2, _, hs1, hs2, heq, ?_⟩
  intro hnd
  have hnd2 : (entries2.map Prod.fst).Nodup := ((hperm.map Prod.fst).nodup_iff).mp hnd
  rw [lookupCodeLength_eq hf1 entries1 hp1 hnd, lookupCodeLength_eq hf2 entries2 hp2 hnd2]
  exact heq

/-- Instance of `tie_break` on a:1, b:1, c:2 and b:1, a:1, c:2. -/
theorem tie_break_witness :
    ∃ root1 table1 root2 table2,
      buildTreeAndCodes [('a', 1), ('b', 1), ('c', 2)] ['x', 'x', 'x', 'x']
        = some (root1, table1) ∧
      buildTreeAndCodes [('b', 1), ('a', 1), ('c', 2)] ['x', 'x', 'x', 'x']
        = some (root2, table2) ∧
      weightedCodeLength root1 table1 = weightedCodeLength root2 table2 ∧
      (([('a', 1), ('b', 1), ('c', 2)] : List (Char × Int)).map Prod.fst).Nodup ∧
      lookupCodeLength [('a', 1), ('b', 1), ('c', 2)] table1
        = lookupCodeLength [('b', 1), ('a', 1), ('c', 2)] table2 := by
  obtain ⟨root1, table1, root2, table2, h1, h2, h3, h4⟩ :=
    tie_break [('a', 1), ('b', 1), ('c', 2)] [('b', 1), ('a', 1), ('c', 2)]
      ['x', 'x', 'x', 'x'] ['x', 'x', 'x', 'x'] (by decide) (by decide) (by decide) (by decide)
      (by decide) (by decide) (by decide) (by decide)
  exact ⟨root1, table1, root2, table2, h1, h2, h3, by decide, h4 (by decide)⟩

/-- Claim C12 (tree shape).  For a non-empty list of entries, every node of the tree returned by
`buildHuffmanTree` is a leaf, with no child and the symbol and weight of an input entry, or has
both children, no symbol, and the sum of the weights of its children as weight; and the weight
of the root is the sum of the input weights. -/
theorem tree_shape (entries : List (Char × Int)) (hne : entries ≠ []) :
    ∃ root, buildHuffmanTree (buildList entries) = some root ∧
      (∀ x ∈ nodes root,
        (x.left = NULL ∧ x.right = NULL ∧ (x.data, x.weight) ∈ entries) ∨
        (x.left ≠ NULL ∧ x.right ≠ NULL ∧ x.data = NUL ∧
          x.weight = x.left.weight + x.right.weight)) ∧
      root.weight = (entries.map Prod.snd).sum := by
  have hlist := buildList_perm entries
  have hne2 : buildList entries ≠ [] := by
    intro h
    have := buildList_length entries
    rw [h] at this
    exact hne (List.length_eq_zero.mp this.symm)
  obtain ⟨root, hb, hshape, hsum⟩ := buildHuffmanTree_invariant
    (fun l => (∀ t ∈ l, t ≠ NULL ∧ ∀ x ∈ nodes t,
        (x.left = NULL ∧ x.right = NULL ∧ (x.data, x.weight) ∈ entries) ∨
        (x.left ≠ NULL ∧ x.right ≠ NULL ∧ x.data = NUL ∧
          x.weight = x.left.weight + x.right.weight)) ∧
      (l.map weight).sum = (entries.map Prod.snd).sum)
    (by
      intro min1 min2 rest ⟨hnodes, hsum⟩
      have hperm := insertNode_perm rest (node NUL (min1.weight + min2.weight) min1 min2)
      obtain ⟨hn1, hx1⟩ := hnodes min1 (by simp)
      obtain ⟨hn2, hx2⟩ := hnodes min2 (by simp)
      constructor
      · intro t ht
        rcases List.mem_cons.mp (hperm.mem_iff.mp ht) with rfl | ht
        · refine ⟨by simp, ?_⟩
          intro x hx
          simp only [nodes, List.mem_cons, List.mem_append] at hx
          rcases hx with rfl | hx | hx
          · exact Or.inr ⟨hn1, hn2, rfl, rfl⟩
          · exact hx1 x hx
          · exact hx2 x hx
        · exact hnodes t (by simp [ht])
      · rw [(hperm.map weight).sum_eq, ← hsum]
        simp only [List.map_cons, List.sum_cons, weight]
        ring)
    (buildList entries) hne2
    (by
      constructor
      · intro t ht
        obtain ⟨e, he, rfl⟩ := List.mem_map.mp (hlist.mem_iff.mp ht)
        refine ⟨by simp [createNode], ?_⟩
        intro x hx
        simp only [createNode, nodes, List.append_nil, List.mem_singleton] at hx
        subst hx
        exact Or.inl ⟨rfl, rfl, he⟩
      · rw [(hlist.map weight).sum_eq, List.map_map]
        rfl)
  refine ⟨root, hb, (hshape root (by simp)).2, ?_⟩
  simpa using hsum

/-- Instance of `tree_shape` on the alphabet a:5, b:9, c:12: the root has weight 26. -/
theorem tree_shape_witness :
    ∃ root, buildHuffmanTree (buildList [('a', 5), ('b', 9), ('c', 12)]) = some root ∧
      root.weight = 26 := by
  obtain ⟨root, hb, _, hw⟩ := tree_shape [('a', 5), ('b', 9), ('c', 12)] (by decide)
  exact ⟨root, hb, by rw [hw]; decide⟩

/-- Claim C13 (table size and content).  For an alphabet of `n ≥ 1` entries,
`generateHuffmanCodes` run on the built tree with an empty table of `n` entries writes exactly
`n` entries, none outside the table, one per leaf in left-to-right order, and the symbols of
the entries are a permutation of the input symbols. -/
theorem table_size (entries : List (Char × Int)) (tempCode : List Char)
    (hsize : 1 ≤ entries.length) (htemp : tempCode.length = entries.length + 1) :
    ∃ root st, buildHuffmanTree (buildList entries) = some root ∧
      generateHuffmanCodes root ⟨[], entries.length, tempCode.set 0 NUL⟩ 0 = some st ∧
      st.codes.length = entries.length ∧ st.codes.length ≤ st.size ∧
      st.codes.map HuffmanCode.data = (leaves root).map Prod.fst ∧
      (st.codes.map HuffmanCode.data).Perm (entries.map Prod.fst) := by
  have hne : entries ≠ [] := by
    intro h
    rw [h] at hsize
    simp at hsize
  obtain ⟨root, st, hb, hg, hcodes, hsz, hf, hp, _⟩ := generate_built entries tempCode hne htemp
  have hlen : st.codes.length = entries.length := by
    rw [hcodes, codesOf_length hf, hp.length_eq]
  refine ⟨root, st, hb, hg, hlen, by rw [hlen, hsz], ?_, ?_⟩
  · rw [hcodes, codesOf_data hf]
  · rw [hcodes, codesOf_data hf]
    exact hp.map Prod.fst

/-- Instance of `table_size` on the alphabet a:5, b:9, c:12. -/
theorem table_size_witness :
    ∃ root st, buildHuffmanTree (buildList [('a', 5), ('b', 9), ('c', 12)]) = some root ∧
      generateHuffmanCodes root ⟨[], 3, ['x', 'x', 'x', 'x'].set 0 NUL⟩ 0 = some st ∧
      st.codes.length = 3 := by
  obtain ⟨root, st, hb, hg, hlen, _⟩ :=
    table_size [('a', 5), ('b', 9), ('c', 12)] ['x', 'x', 'x', 'x'] (by decide) (by decide)
  exact ⟨root, st, hb, hg, hlen⟩

/-- Claim C14 (empty alphabet), evaluated on the code.  With no entry the work list is empty,
and `buildHuffmanTree` reads `(*head)->next` through the null `*head`: the result `none` of the
model is that invalid access, not an error reported to the caller; the set-up code of `main`
does not get past it. -/
theorem empty_alphabet_invalid_access (tempCode : List Char) :
    buildList [] = [] ∧ buildHuffmanTree (buildList []) = none ∧
      buildTreeAndCodes [] tempCode = none := by
  refine ⟨rfl, rfl, rfl⟩

/-- Claim C15 (illegal input).  For an alphabet of at least two entries and every input
string, `decodeString` returns `NULL`, hence no partial output, exactly when the string holds a
character other than '0' and '1'; on a string of bits it returns a decoded string. -/
theorem illegal_input_rejected (entries : List (Char × Int)) (tempCode : List Char)
    (hsize : 2 ≤ entries.length) (htemp : tempCode.length = entries.length + 1) :
    ∃ root table, buildTreeAndCodes entries tempCode = some (root, table) ∧
      ∀ bits : List Char,
        (decodeString root (some bits) = DecodeResult.returnsNULL ↔
          ∃ c ∈ bits, c ≠ '0' ∧ c ≠ '1') ∧
        ((∀ c ∈ bits, c = '0' ∨ c = '1') →
          ∃ decoded incomplete,
            decodeString root (some bits) = DecodeResult.returns decoded incomplete) := by
  have hne : entries ≠ [] := by
    intro h
    rw [h] at hsize
    simp at hsize
  obtain ⟨root, hb, hf, hp⟩ := buildTreeAndCodes_spec entries tempCode hne htemp
  have hleaf := isLeaf_of_two_leaves hf (by rw [hp.length_eq]; exact hsize)
  refine ⟨root, codesOf root [], hb, ?_⟩
  intro bits
  obtain ⟨h1, h2⟩ := decodeLoop_total hf hleaf bits root [] hf hleaf
  rw [decodeString_full hf]
  refine ⟨⟨?_, h1⟩, ?_⟩
  · intro hnull
    by_contra hall
    have hall2 : ∀ c ∈ bits, c = '0' ∨ c = '1' := by
      intro c hc
      by_contra hcc
      exact hall ⟨c, hc, fun h => hcc (Or.inl h), fun h => hcc (Or.inr h)⟩
    obtain ⟨out, inc, ho, _⟩ := h2 hall2
    rw [ho] at hnull
    exact absurd hnull (by simp)
  · intro hall
    obtain ⟨out, inc, ho, _⟩ := h2 hall
    exact ⟨out, inc, ho⟩

/-- Instance of `illegal_input_rejected` on the alphabet a:5, b:9, c:12 (codes c:0, a:10,
b:11): the complete codes of `c` and `a` followed by the character `x` give `NULL`. -/
theorem illegal_input_rejected_witness :
    ∃ root table,
      buildTreeAndCodes [('a', 5), ('b', 9), ('c', 12)] ['x', 'x', 'x', 'x'] = some (root, table) ∧
      decodeString root (some ['0', '1', '0', 'x', '1']) = DecodeResult.returnsNULL := by
  obtain ⟨root, table, hb, h⟩ :=
    illegal_input_rejected [('a', 5), ('b', 9), ('c', 12)] ['x', 'x', 'x', 'x'] (by decide)
      (by decide)
  exact ⟨root, table, hb, (h ['0', '1', '0', 'x', '1']).1.mpr ⟨'x', by decide, by decide, by decide⟩⟩

/-- Claim C16 (unpack).  For a buffer of `byteCount` bytes and a bit count of at most
`8 * byteCount`, `bytesToBinaryString` returns a string of exactly `bitCount` characters over
'0' and '1' whose `k`-th character is '1' exactly when bit `7 - k % 8` of byte `k / 8` is set;
so a second buffer that agrees on the bits at logical indices below `bitCount` unpacks to the
same string. -/
theorem unpack_exact (bytes : List Nat) (byteCount bitCount : Nat)
    (hbuf : bytes.length = byteCount) (hceil : bitCount ≤ 8 * byteCount) :
    ∃ s, bytesToBinaryString bytes byteCount bitCount = some s ∧ s.length = bitCount ∧
      (∀ (k : Nat) (hk : k < s.length),
        (s[k] = '1' ↔ (bytes.getD (k / 8) 0).testBit (7 - k % 8) = true) ∧
        (s[k] = '0' ∨ s[k] = '1')) ∧
      ∀ bytes2 : List Nat, bytes2.length = byteCount →
        (∀ k, k < bitCount →
          (bytes2.getD (k / 8) 0).testBit (7 - k % 8)
            = (bytes.getD (k / 8) 0).testBit (7 - k % 8)) →
        bytesToBinaryString bytes2 byteCount bitCount = some s := by
  refine ⟨_, bytesToBinaryString_spec bytes byteCount bitCount (by omega) hceil, by simp, ?_, ?_⟩
  · intro k hk
    simp only [List.getElem_map, List.getElem_range, bitChar, logicalBit]
    cases (bytes.getD (k / 8) 0).testBit (7 - k % 8) <;> simp
  · intro bytes2 hlen2 hagree
    rw [bytesToBinaryString_spec bytes2 byteCount bitCount (by omega) hceil]
    congr 1
    apply List.map_congr_left
    intro k hk
    simp only [bitChar, logicalBit, hagree k (List.mem_range.mp hk)]

/-- Instance of `unpack_exact`: two bytes, 15 bits. -/
theorem unpack_exact_witness :
    ∃ s, bytesToBinaryString [204, 222] 2 15 = some s ∧ s.length = 15 ∧
      bytesToBinaryString [204, 223] 2 15 = some s := by
  obtain ⟨s, h1, h2, _, h4⟩ := unpack_exact [204, 222] 2 15 (by decide) (by decide)
  refine ⟨s, h1, h2, h4 [204, 223] (by decide) ?_⟩
  intro k hk
  interval_cases k <;> decide

/-- Claim C17 (sorted, stable insertion).  For a list in ascending order of weight and a new
node, the result of `insertNode` is in ascending order of weight and is the old list with the
new node put in at one place, the old nodes keeping their order: the nodes before it have
weight at most its own, the nodes after it a strictly greater weight. -/
theorem sorted_stable_insertion (head : List HuffmanNode) (newNode : HuffmanNode)
    (hsorted : SortedByWeight head) :
    SortedByWeight (insertNode head newNode) ∧
      ∃ before after, head = before ++ after ∧
        insertNode head newNode = before ++ newNode :: after ∧
        (∀ x ∈ before, x.weight ≤ newNode.weight) ∧
        (∀ x ∈ after, newNode.weight < x.weight) := by
  refine ⟨insertNode_sorted head newNode hsorted, ?_⟩
  obtain ⟨before, after, h1, h2, h3, h4⟩ := insertAfter_split head newNode
  refine ⟨before, after, h1, by rw [insertNode_eq_insertAfter]; exact h2, h3, ?_⟩
  intro x hx
  cases after with
  | nil => simp at hx
  | cons y rest =>
    have hy := h4 y rfl
    rcases List.mem_cons.mp hx with rfl | hx
    · exact hy
    · have hs : SortedByWeight (y :: rest) := by
        unfold SortedByWeight at hsorted ⊢
        rw [h1] at hsorted
        exact (List.pairwise_append.mp hsorted).2.1
      unfold SortedByWeight at hs
      exact lt_of_lt_of_le hy ((List.pairwise_cons.mp hs).1 x hx)

/-- Instance of `sorted_stable_insertion`: a node of weight 9 inserted into the weights
5, 9, 12 comes after the old node of weight 9. -/
theorem sorted_stable_insertion_witness :
    SortedByWeight (insertNode [createNode 'a' 5, createNode 'b' 9, createNode 'c' 12]
      (createNode 'd' 9)) ∧
    insertNode [createNode 'a' 5, createNode 'b' 9, createNode 'c' 12] (createNode 'd' 9)
      = [createNode 'a' 5, createNode 'b' 9, createNode 'd' 9, createNode 'c' 12] :=
  ⟨(sorted_stable_insertion [createNode 'a' 5, createNode 'b' 9, createNode 'c' 12]
      (createNode 'd' 9) (by simp [SortedByWeight, createNode, weight])).1, by decide⟩

/-- Claim C18 (codes follow paths).  For a non-empty alphabet, walking from the root of the
built tree along the code of any entry written by `generateHuffmanCodes`, left on '0' and
right on '1', ends at a leaf with the symbol of the entry; and the path to any leaf is the
code of exactly one entry of the table. -/
theorem codes_follow_paths (entries : List (Char × Int)) (tempCode : List Char)
    (hne : entries ≠ []) (htemp : tempCode.length = entries.length + 1) :
    ∃ root st, buildHuffmanTree (buildList entries) = some root ∧
      generateHuffmanCodes root ⟨[], entries.length, tempCode.set 0 NUL⟩ 0 = some st ∧
      (∀ e ∈ st.codes, (walk root e.code).isLeaf = true ∧ (walk root e.code).data = e.data) ∧
      ∀ path, (walk root path).isLeaf = true →
        ∃ (i : Nat) (hi : i < st.codes.length), st.codes[i].code = path ∧
          ∀ (j : Nat) (hj : j < st.codes.length), st.codes[j].code = path → j = i := by
  obtain ⟨root, st, hb, hg, hcodes, _, hf, _, _⟩ := generate_built entries tempCode hne htemp
  refine ⟨root, st, hb, hg, ?_, ?_⟩
  · intro e he
    rw [hcodes] at he
    obtain ⟨w, hw⟩ := walk_code hf e he
    rw [hw]
    exact ⟨rfl, rfl⟩
  · intro path hpath
    obtain ⟨codes, size, code⟩ := st
    simp only at hcodes ⊢
    subst hcodes
    obtain ⟨e, he, hc⟩ := leaf_path_code hf path hpath
    obtain ⟨i, hi, hie⟩ := List.getElem_of_mem he
    refine ⟨i, hi, by rw [hie, hc], ?_⟩
    intro j hj hjc
    exact code_index_unique hf j i hj hi (by rw [hjc, hie, hc])

/-- Instance of `codes_follow_paths` on the alphabet a:5, b:9, c:12. -/
theorem codes_follow_paths_witness :
    ∃ root st, buildHuffmanTree (buildList [('a', 5), ('b', 9), ('c', 12)]) = some root ∧
      generateHuffmanCodes root ⟨[], 3, ['x', 'x', 'x', 'x'].set 0 NUL⟩ 0 = some st ∧
      ∀ e ∈ st.codes, (walk root e.code).isLeaf = true ∧ (walk root e.code).data = e.data := by
  obtain ⟨root, st, hb, hg, h, _⟩ :=
    codes_follow_paths [('a', 5), ('b', 9), ('c', 12)] ['x', 'x', 'x', 'x'] (by decide)
      (by decide)
  exact ⟨root, st, hb, hg, h⟩

/-- Claim C19 (build terminates with one root).  For a non-empty sorted list of `n` nodes as
`createNode` returns them, `buildHuffmanTree` returns a root after exactly `n - 1` iterations
of its loop: a budget of `n - 1` iterations or more gives the root, a smaller one does not;
each iteration takes the two first nodes `x`, `y` off a list of at least two and inserts a
node with `x` as left child, `y` as right child and the sum of their weights; after `n - 1`
iterations the root is the only node of the list, and its tree has `n` leaves and `n - 1`
nodes with children. -/
theorem build_terminates (head : List HuffmanNode) (hne : head ≠ [])
    (_hsorted : SortedByWeight head) (hleaves : ∀ t ∈ head, t.isLeaf = true) :
    ∃ root, buildHuffmanTree head = some root ∧
      (∀ fuel, head.length - 1 ≤ fuel → buildLoop fuel head = some root) ∧
      (∀ fuel, fuel < head.length - 1 → buildLoop fuel head = none) ∧
      (∀ x y rest, mergeStep (x :: y :: rest)
        = insertNode rest (node NUL (x.weight + y.weight) x y)) ∧
      (∀ j, j < head.length - 1 → 2 ≤ (mergeStep^[j] head).length) ∧
      mergeStep^[head.length - 1] head = [root] ∧
      (leaves root).length = head.length ∧ internalCount root = head.length - 1 := by
  have hpos : 0 < head.length := List.length_pos.mpr hne
  obtain ⟨root, hit, hge, hlt, hlist⟩ :=
    buildLoop_exact (head.length - 1) head (by omega)
  have hb : buildHuffmanTree head = some root := hge head.length (by omega)
  obtain ⟨root2, hb2, hf, hp⟩ := buildHuffmanTree_full head hne
    (fun t ht => (full_of_isLeaf (hleaves t ht)).1)
  rw [hb] at hb2
  obtain rfl := Option.some.inj hb2
  have hn : (leaves root).length = head.length := by
    rw [hp.length_eq, flatMap_leaves_length head hleaves]
  refine ⟨root, hb, hge, hlt, fun _ _ _ => rfl, ?_, hit, hn, ?_⟩
  · intro j hj
    rw [hlist j hj]
    omega
  · have := internalCount_full hf
    omega

/-- Instance of `build_terminates` on the three leaves a:5, b:9, c:12: two iterations. -/
theorem build_terminates_witness :
    ∃ root, buildHuffmanTree [createNode 'a' 5, createNode 'b' 9, createNode 'c' 12] = some root ∧
      buildLoop 2 [createNode 'a' 5, createNode 'b' 9, createNode 'c' 12] = some root ∧
      buildLoop 1 [createNode 'a' 5, createNode 'b' 9, createNode 'c' 12] = none ∧
      (leaves root).length = 3 ∧ internalCount root = 2 := by
  obtain ⟨root, hb, hge, hlt, _, _, _, hn, hi⟩ :=
    build_terminates [createNode 'a' 5, createNode 'b' 9, createNode 'c' 12] (by simp)
      (by simp [SortedByWeight, createNode, weight]) (by decide)
  exact ⟨root, hb, hge 2 (by decide), hlt 1 (by decide), hn, hi⟩

/-- Claim C20 (code length bounds).  For an alphabet of `n ≥ 2` entries and the scratch buffer
of `n + 1` characters, `generateHuffmanCodes` completes without a write outside the buffer, and
every code of the table has at least 1 and at most `n - 1` characters. -/
theorem code_length_bounds (entries : List (Char × Int)) (tempCode : List Char)
    (hsize : 2 ≤ entries.length) (htemp : tempCode.length = entries.length + 1) :
    ∃ root st, buildHuffmanTree (buildList entries) = some root ∧
      generateHuffmanCodes root ⟨[], entries.length, tempCode.set 0 NUL⟩ 0 = some st ∧
      st.code.length = entries.length + 1 ∧
      ∀ e ∈ st.codes, 1 ≤ e.code.length ∧ e.code.length ≤ entries.length - 1 := by
  have hne : entries ≠ [] := by
    intro h
    rw [h] at hsize
    simp at hsize
  obtain ⟨root, st, hb, hg, hcodes, _, hf, hp, hbuf⟩ :=
    generate_built entries tempCode hne htemp
  have hleaf := isLeaf_of_two_leaves hf (by rw [hp.length_eq]; exact hsize)
  refine ⟨root, st, hb, hg, by rw [hbuf, htemp], ?_⟩
  · intro e he
    rw [hcodes] at he
    have h1 := code_length_pos hf hleaf e he
    have h2 := code_length_le_height hf e he
    have h3 := height_lt_leaves hf
    rw [hp.length_eq] at h3
    exact ⟨h1, by omega⟩

/-- Instance of `code_length_bounds` on the alphabet a:5, b:9, c:12. -/
theorem code_length_bounds_witness :
    ∃ root st, buildHuffmanTree (buildList [('a', 5), ('b', 9), ('c', 12)]) = some root ∧
      generateHuffmanCodes root ⟨[], 3, ['x', 'x', 'x', 'x'].set 0 NUL⟩ 0 = some st ∧
      ∀ e ∈ st.codes, 1 ≤ e.code.length ∧ e.code.length ≤ 2 := by
  obtain ⟨root, st, hb, hg, _, h⟩ :=
    code_length_bounds [('a', 5), ('b', 9), ('c', 12)] ['x', 'x', 'x', 'x'] (by decide)
      (by decide)
  exact ⟨root, st, hb, hg, h⟩

/-- Claim C21 (decoder stays in the tree).  For an alphabet of at least two entries and every
string over '0' and '1', every iteration of the loop of `decodeString` is run and starts at a
node that has both children, so no step goes to a missing child; a string is returned, with
at most as many characters as there are input bits. -/
theorem decoder_stays_in_tree (entries : List (Char × Int)) (tempCode : List Char)
    (hsize : 2 ≤ entries.length) (htemp : tempCode.length = entries.length + 1) :
    ∃ root table, buildTreeAndCodes entries tempCode = some (root, table) ∧
      ∀ bits : List Char, (∀ c ∈ bits, c = '0' ∨ c = '1') →
        (decodeStates root root bits).length = bits.length ∧
        (∀ x ∈ decodeStates root root bits, x ≠ NULL ∧ x.left ≠ NULL ∧ x.right ≠ NULL) ∧
        ∃ decoded incomplete,
          decodeString root (some bits) = DecodeResult.returns decoded incomplete ∧
          decoded.length ≤ bits.length := by
  have hne : entries ≠ [] := by
    intro h
    rw [h] at hsize
    simp at hsize
  obtain ⟨root, hb, hf, hp⟩ := buildTreeAndCodes_spec entries tempCode hne htemp
  have hleaf := isLeaf_of_two_leaves hf (by rw [hp.length_eq]; exact hsize)
  refine ⟨root, codesOf root [], hb, ?_⟩
  intro bits hbits
  obtain ⟨h1, h2⟩ := decodeStates_total hf hleaf bits root hf hleaf hbits
  obtain ⟨out, inc, ho, hol⟩ := (decodeLoop_total hf hleaf bits root [] hf hleaf).2 hbits
  refine ⟨h1, ?_, out, inc, ?_, by simpa using hol⟩
  · intro x hx
    obtain ⟨hx1, hx2⟩ := h2 x hx
    exact children_of_inner hx1 hx2
  · rw [decodeString_full hf]
    exact ho

/-- Instance of `decoder_stays_in_tree` on the alphabet a:5, b:9, c:12 and the bits 1, 1, 0,
1, which are not an output of the encoder. -/
theorem decoder_stays_in_tree_witness :
    ∃ root table,
      buildTreeAndCodes [('a', 5), ('b', 9), ('c', 12)] ['x', 'x', 'x', 'x'] = some (root, table) ∧
      (decodeStates root root ['1', '1', '0', '1']).length = 4 ∧
      ∃ decoded incomplete,
        decodeString root (some ['1', '1', '0', '1'])
          = DecodeResult.returns decoded incomplete ∧ decoded.length ≤ 4 := by
  obtain ⟨root, table, hb, h⟩ :=
    decoder_stays_in_tree [('a', 5), ('b', 9), ('c', 12)] ['x', 'x', 'x', 'x'] (by decide)
      (by decide)
  obtain ⟨h1, _, h3⟩ := h ['1', '1', '0', '1'] (by decide)
  exact ⟨root, table, hb, h1, h3⟩

/-- Claim C22, refuted as stated: with the sum of line 52 computed in 32-bit `int`, the
positive weights a:1100000000, b:1000000000, c:900000000, d:1900000000, e:1700000000, each
within the range of `int`, give `a` the code 000 and the lighter `c` the code 10 (the sum of
the weights of `a` and `e` overflows to a negative value and is inserted first). -/
theorem heavier_longer_on_overflow :
    (∀ e ∈ [('a', (1100000000 : Int)), ('b', 1000000000), ('c', 900000000),
        ('d', 1900000000), ('e', 1700000000)], 0 < e.2 ∧ e.2 ≤ 2147483647) ∧
    (buildTreeAndCodes32 [('a', 1100000000), ('b', 1000000000), ('c', 900000000),
        ('d', 1900000000), ('e', 1700000000)] ['x', 'x', 'x', 'x', 'x', 'x']).map
      (fun p => (findCode p.2 'a', findCode p.2 'c'))
      = some (some ['0', '0', '0'], some ['1', '0']) := by
  refine ⟨by decide, by decide⟩

/-- Claim C22, amended (heavier symbols, no longer codes).  For an alphabet of at least two
entries with positive weights whose sum is at most `INT_MAX` (2147483647), so that no sum of
weights overflows, the set-up code of `main` with 32-bit sums returns a tree whose leaves are
the entries and a table written for them in the same order; an entry of greater weight has a
code no longer than an entry of smaller weight, for the codes at their table positions and,
when the symbols are pairwise distinct, for the codes looked up by symbol. -/
theorem heavier_not_longer_in_range (entries : List (Char × Int)) (tempCode : List Char)
    (hsize : 2 ≤ entries.length) (hpos : ∀ e ∈ entries, 0 < e.2)
    (hrange : (entries.map Prod.snd).sum ≤ 2147483647)
    (htemp : tempCode.length = entries.length + 1) :
    ∃ root table, buildTreeAndCodes32 entries tempCode = some (root, table) ∧
      (leaves root).Perm entries ∧
      table.map HuffmanCode.data = (leaves root).map Prod.fst ∧
      (∀ (i j : Nat) (hi : i < table.length) (hj : j < table.length)
          (hi2 : i < (leaves root).length) (hj2 : j < (leaves root).length),
        (leaves root)[j].2 < (leaves root)[i].2 →
          table[i].code.length ≤ table[j].code.length) ∧
      ((entries.map Prod.fst).Nodup → ∀ a ∈ entries, ∀ b ∈ entries, b.2 < a.2 →
        ((findCode table a.1).getD []).length ≤ ((findCode table b.1).getD []).length) := by
  obtain ⟨root, table, hb, hrest⟩ := heavier_not_longer entries tempCode hsize hpos htemp
  refine ⟨root, table, ?_, hrest⟩
  rw [buildTreeAndCodes32_eq entries tempCode hpos hrange]
  exact hb

/-- Instance of `heavier_not_longer_in_range` on the alphabet a:5, b:9, c:12: the code looked
up for `c` is no longer than the code looked up for `a`. -/
theorem heavier_not_longer_in_range_witness :
    ∃ root table,
      buildTreeAndCodes32 [('a', 5), ('b', 9), ('c', 12)] ['x', 'x', 'x', 'x']
        = some (root, table) ∧
      ((findCode table 'c').getD []).length ≤ ((findCode table 'a').getD []).length := by
  obtain ⟨root, table, hb, _, _, _, h⟩ :=
    heavier_not_longer_in_range [('a', 5), ('b', 9), ('c', 12)] ['x', 'x', 'x', 'x']
      (by decide) (by decide) (by decide) (by decide)
  exact ⟨root, table, hb, h (by decide) ('c', 12) (by decide) ('a', 5) (by decide) (by decide)⟩

/-- Claim C23 (displayed rows), evaluated on the code.  For the entries a:5, b:9, c:12, d:13,
e:16, f:45 the table is in the order f, c, d, a, b, e of the leaves of the tree, while
`weights` is in input order: the rows of menu option 3 pair `f` with 5, `c` with 9, `d` with
12, `a` with 13, `b` with 16 and `e` with 45, and no row shows the weight supplied for its
character. -/
theorem display_rows_mismatch :
    (buildTreeAndCodes [('a', 5), ('b', 9), ('c', 12), ('d', 13), ('e', 16), ('f', 45)]
        ['x', 'x', 'x', 'x', 'x', 'x', 'x']).map
      (fun p => displayRows p.2 [5, 9, 12, 13, 16, 45])
      = some [('f', 5, ['0']), ('c', 9, ['1', '0', '0']), ('d', 12, ['1', '0', '1']),
          ('a', 13, ['1', '1', '0', '0']), ('b', 16, ['1', '1', '0', '1']),
          ('e', 45, ['1', '1', '1'])] ∧
    (∀ row ∈ [('f', (5 : Int)), ('c', 9), ('d', 12), ('a', 13), ('b', 16), ('e', 45)],
      row ∉ [('a', (5 : Int)), ('b', 9), ('c', 12), ('d', 13), ('e', 16), ('f', 45)]) := by
  refine ⟨by decide, by decide⟩

end Huffman
